import Mathlib

set_option maxRecDepth 100000

/-!
Verification development for the codie-discord code-running bot.

We shallowly embed the parts of the program that the checked claims are
about:

* the output encoder (`impl fmt::Display for Output` in `src/runner.rs`),
* the output-budget accounting of `OutputBuilder` (`src/runner.rs`),
  including a byte-level model of UTF-8 decoding matching
  `std::str::from_utf8`,
* the options parser (`src/options_parser.rs`, built on `nom`),
* the language catalog (`src/lang.rs`),
* the container-lifecycle control flow of `CodeRunner::run_code`
  (`src/runner.rs`).

Machine integers are modelled as `Nat` (none of the verified code paths
overflow-depend), bytes as `Nat` values `< 256`, Rust strings as
`List Char`, fallible calls as explicit result sums.
-/

namespace Codie

/-! ## Characters used by the output encoder -/

/-- The backtick character (U+0060), written via its code so that the
source stays free of stray backticks. -/
def backtickChar : Char := Char.ofNat 0x60

/-- U+02CB MODIFIER LETTER GRAVE ACCENT, the visually-similar substitute
used by `escape_codeblock` (`"\u{02CB}"` in `src/runner.rs`). -/
def graveChar : Char := Char.ofNat 0x2CB

/-- The Markdown code-fence delimiter: three backticks. -/
def fenceChars : List Char := [backtickChar, backtickChar, backtickChar]

/-- The replacement emitted for each fence occurrence: three modifier
grave accents. -/
def graveFence : List Char := [graveChar, graveChar, graveChar]

/-- `l` contains the fence delimiter as a contiguous substring. -/
def hasFence (l : List Char) : Prop := ∃ a b, l = a ++ fenceChars ++ b

/-! ## Output encoder (`impl fmt::Display for Output`, src/runner.rs)

`escape_codeblock` is `Regex::new(r"(three backticks)").replace_all(code,
"\u{02CB}\u{02CB}\u{02CB}")`: non-overlapping left-to-right replacement of
every occurrence of three consecutive backticks. -/

def escapeCodeblock (l : List Char) : List Char :=
  match l with
  | [] => []
  | c :: rest =>
    if (c :: rest).take 3 = fenceChars then
      graveFence ++ escapeCodeblock (rest.drop 2)
    else
      c :: escapeCodeblock rest
termination_by l.length
decreasing_by
  · simp only [List.length_cons, List.length_drop]
    omega
  · simp

/-- The Rust `Output` struct of src/runner.rs (`status: u64`,
`tty: Box<str>`). The captured text is modelled as a list of chars. -/
structure Output where
  status : Nat
  tty : List Char
deriving Repr, DecidableEq

/-- `Output::success` (src/runner.rs line 181). -/
def Output.success (o : Output) : Bool := o.status == 0

/-- The bold exit-status line `**EXIT STATUS:** {status}\n` written by
`fmt::Display for Output` when the run was not successful. -/
def statusLine (status : Nat) : List Char :=
  "**EXIT STATUS:** ".toList ++ (Nat.repr status).toList ++ ['\n']

/-- `fmt::Display for Output` (src/runner.rs lines 186-201): optional
status line, then the captured text wrapped in a fenced code block, with
fences inside the text escaped. -/
def renderOutput (o : Output) : List Char :=
  (if o.success then [] else statusLine o.status)
    ++ "```\n".toList ++ escapeCodeblock o.tty ++ "```".toList

/-! ## Output budget (src/runner.rs lines 212-213) -/

/-- `serenity::constants::MESSAGE_CODE_LIMIT`: the Discord message size
limit, 2000 codepoints. -/
def messageCodeLimit : Nat := 2000

/-- The overhead stand-in string whose `.len()` is subtracted from the
platform limit in src/runner.rs:
`"mentions_cost_22_chars: **EXIT STATUS:** 255\n(fence)...(fence)"`.
All its characters are ASCII, so Rust's byte `.len()` equals its
codepoint count. -/
def overheadText : String :=
  "mentions_cost_22_chars: **EXIT STATUS:** 255\n```...```"

/-- `MAX_OUTPUT_CODEPOINTS = MESSAGE_CODE_LIMIT - overhead.len()`. -/
def maxOutputCodepoints : Nat := messageCodeLimit - overheadText.length

/-- The mention-prefix part of the overhead stand-in (everything before
the status line): a reply mention costs this many codepoints on top of
the encoder's own rendering. -/
def mentionPrefixText : String := "mentions_cost_22_chars: "

/-- The truncation marker `...` appended by `OutputBuilder::extend`. -/
def truncationMarkerLen : Nat := 3

/-! ## UTF-8 validation/decoding (model of `std::str::from_utf8`)

`OutputBuilder::extend` calls `str::from_utf8` on each chunk to decide
how to count it, and `OutputBuilder::build` calls
`String::from_utf8(buf).unwrap()`. We model bytes as `Nat` (`< 256` where
it matters) and a decoded string as its list of codepoints. The decoder
below implements strict UTF-8: lead-byte ranges, continuation bytes
`0x80-0xBF`, no overlong forms (first byte `>= 0xC2`; restricted first
continuation byte after `0xE0`/`0xF0`), no surrogates (restriction after
`0xED`), maximum `0x10FFFF` (lead `<= 0xF4`; restriction after `0xF4`). -/

/-- A UTF-8 continuation byte: `0x80-0xBF`. -/
def isContByte (b : Nat) : Bool := 0x80 ≤ b && b < 0xC0

/-- Lower bound for the first continuation byte after lead `b`. -/
def firstContLo (b : Nat) : Nat :=
  if b = 0xE0 then 0xA0 else if b = 0xF0 then 0x90 else 0x80

/-- Upper (exclusive) bound for the first continuation byte after lead
`b`. -/
def firstContHi (b : Nat) : Nat :=
  if b = 0xED then 0xA0 else if b = 0xF4 then 0x90 else 0xC0

/-- One decoding step of strict UTF-8: read one codepoint from the front
of the byte list, returning it and the remaining bytes; `none` if the
input is empty or starts with an ill-formed sequence. -/
def utf8DecodeOne : List Nat → Option (Nat × List Nat)
  | [] => none
  | b :: bs =>
    if b < 0x80 then some (b, bs)
    else if b < 0xC2 then none
    else if b < 0xE0 then
      match bs with
      | b1 :: bs' =>
        if isContByte b1 then
          some ((b - 0xC0) * 64 + (b1 - 0x80), bs')
        else none
      | [] => none
    else if b < 0xF0 then
      match bs with
      | b1 :: b2 :: bs' =>
        if (firstContLo b ≤ b1 && b1 < firstContHi b) && isContByte b2 then
          some ((b - 0xE0) * 4096 + (b1 - 0x80) * 64 + (b2 - 0x80), bs')
        else none
      | [] => none
      | [b1] => none
    else if b < 0xF5 then
      match bs with
      | b1 :: b2 :: b3 :: bs' =>
        if (firstContLo b ≤ b1 && b1 < firstContHi b)
            && isContByte b2 && isContByte b3 then
          some ((b - 0xF0) * 262144 + (b1 - 0x80) * 4096
            + (b2 - 0x80) * 64 + (b3 - 0x80), bs')
        else none
      | [] => none
      | [b1] => none
      | [b1, b2] => none
    else none

/-- Iterate `utf8DecodeOne`; the fuel argument (always called with at
least the list length, which bounds the number of codepoints) keeps the
recursion structural so concrete inputs evaluate. -/
def utf8DecodeFuel : Nat → List Nat → Option (List Nat)
  | _, [] => some []
  | 0, _ :: _ => none
  | fuel + 1, b :: bs =>
    match utf8DecodeOne (b :: bs) with
    | none => none
    | some (cp, rest) => (utf8DecodeFuel fuel rest).map (cp :: ·)

/-- Decode a byte sequence as strict UTF-8 into its codepoint sequence;
`none` models `str::from_utf8` / `String::from_utf8` returning `Err`. -/
def utf8Decode (l : List Nat) : Option (List Nat) := utf8DecodeFuel l.length l

/-! ## Output-budget accounting (`OutputBuilder`, src/runner.rs 203-261) -/

/-- The per-chunk codepoint accounting of `OutputBuilder::extend`: the
character count if the chunk decodes as UTF-8, else its byte length
("assume the worst case where each byte is a codepoint"). -/
def chunkCost (bs : List Nat) : Nat :=
  match utf8Decode bs with
  | some s => s.length
  | none => bs.length

/-- Total accounted cost of a chunk sequence. -/
def costSum (cs : List (List Nat)) : Nat := (cs.map chunkCost).sum

/-- The bytes `b"..."` appended on truncation. -/
def truncationMarker : List Nat := [46, 46, 46]

/-- The loop of `OutputBuilder::extend`, starting from a running
codepoint count `cnt`: for each chunk, add its cost; if the count now
exceeds `MAX_OUTPUT_CODEPOINTS`, append the marker instead of the chunk
and stop with an overflow flag; otherwise append the chunk's raw bytes.
Returns the bytes appended and whether the budget overflowed. -/
def extendChunks (cnt : Nat) : List (List Nat) → List Nat × Bool
  | [] => ([], false)
  | c :: rest =>
    if maxOutputCodepoints < cnt + chunkCost c then
      (truncationMarker, true)
    else
      let r := extendChunks (cnt + chunkCost c) rest
      (c ++ r.1, r.2)

/-- `OutputBuilder::build`: `String::from_utf8(self.buf).unwrap()`.
`none` models the panic on a buffer that is not valid UTF-8. -/
def buildTty (buf : List Nat) : Option (List Nat) := utf8Decode buf

/-! ## Container lifecycle control flow (`CodeRunner::run_code`,
src/runner.rs lines 72-171)

We model the Docker engine's scripted responses to each call made by
`run_code` as a `RunEnv`, and `run_code` itself as a pure function from
that environment to an outcome (a returned `anyhow::Result` or a process
panic) together with the list of lifecycle events it caused. -/

/-- `shiplift::Error`, reduced to what `run_code` distinguishes: an HTTP
`Fault` with a status code, or any other transport/API error (tagged with
an opaque id). -/
inductive DockerError where
  | fault (code : Nat)
  | transport (id : Nat)
deriving Repr, DecidableEq

/-- The error alternatives `run_code` can return (`anyhow::Error`
downcast): the marker `UnrecognizedContainer`, or a propagated engine
error. -/
inductive RunError where
  | unrecognizedContainer
  | docker (e : DockerError)
deriving Repr, DecidableEq

/-- The `Output` value as built inside `run_code` (tty as decoded
codepoints). -/
structure RunOutput where
  status : Nat
  tty : List Nat
deriving Repr, DecidableEq

/-- Lifecycle events caused by `run_code`: container created, the
container-remove call issued, an image build invoked (the last never
happens inside `run_code`). -/
inductive RunEvent where
  | created
  | removeCalled
  | imageBuilt
deriving Repr, DecidableEq

/-- A `run_code` invocation either returns a value or aborts the
process. -/
inductive RunOutcome where
  | ret (r : Except RunError RunOutput)
  | panicked
deriving Repr

/-- The engine's scripted responses for one `run_code` invocation:
results of `create`, `copy_file_into`, `start`; whether the wall-clock
timeout fired before drain-and-wait completed; the log chunks drained
during the race and those recovered by the post-stop drain; the results
of `wait` (inside the race, and after a force-stop), `stop`, and
`remove`. -/
structure RunEnv where
  createRes : Except DockerError Unit
  copyRes : Except DockerError Unit
  startRes : Except DockerError Unit
  timedOut : Bool
  chunks : List (List Nat)
  lateChunks : List (List Nat)
  waitRaceRes : Except DockerError Nat
  stopRes : Except DockerError Unit
  waitAfterStopRes : Except DockerError Nat
  removeRes : Except DockerError Unit
deriving Repr

/-- Result of the inner `stop_container` helper: it either returns
(treating success and HTTP 304 "already stopped" alike) or panics. -/
inductive StopResult where
  | proceeded
  | panicked
deriving Repr, DecidableEq

/-- `stop_container` (src/runner.rs lines 110-117): `Ok` and
`Err(Fault { code: 304 })` proceed; any other error panics. -/
def stopContainer : Except DockerError Unit → StopResult
  | .ok _ => .proceeded
  | .error (.fault code) => if code = 304 then .proceeded else .panicked
  | .error (.transport _) => .panicked

/-- The final contents of `OutputBuilder.buf`: the chunks drained during
the race; if the race was lost to the timer (and the budget had not
overflowed, which would have closed the log stream), the post-stop drain
continues from the same running count over the remaining chunks. -/
def runCodeBuf (env : RunEnv) : List Nat :=
  let st := extendChunks 0 env.chunks
  if st.2 || !env.timedOut then st.1
  else st.1 ++ (extendChunks (costSum env.chunks) env.lateChunks).1

/-- The tail of `run_code` after the exit status is known (src/runner.rs
lines 159-170): best-effort second drain, force-remove (the error of
which propagates), then build the `Output` — panicking if the captured
bytes are not valid UTF-8. -/
def runCodeFinish (env : RunEnv) (exit : Nat) : RunOutcome × List RunEvent :=
  match env.removeRes with
  | .error e => (.ret (.error (.docker e)), [.created, .removeCalled])
  | .ok _ =>
    match utf8Decode (runCodeBuf env) with
    | none => (.panicked, [.created, .removeCalled])
    | some tty => (.ret (.ok ⟨exit, tty⟩), [.created, .removeCalled])

/-- `CodeRunner::run_code` (src/runner.rs lines 72-171). Create maps a
404 fault to `UnrecognizedContainer` and propagates other errors; copy
and start propagate errors with `?` (without any remove); the race of
drain-and-wait against the timeout either completes (wait errors panic
via `.unwrap()`), overflows the budget, or times out; the latter two
force-stop (panicking on a non-304 stop failure) and wait again (errors
propagating, again without remove); finally the container is removed and
the `Output` built. -/
def runCode (env : RunEnv) : RunOutcome × List RunEvent :=
  match env.createRes with
  | .error (.fault code) =>
    if code = 404 then (.ret (.error .unrecognizedContainer), [])
    else (.ret (.error (.docker (.fault code))), [])
  | .error (.transport id) => (.ret (.error (.docker (.transport id))), [])
  | .ok _ =>
    match env.copyRes with
    | .error e => (.ret (.error (.docker e)), [.created])
    | .ok _ =>
      match env.startRes with
      | .error e => (.ret (.error (.docker e)), [.created])
      | .ok _ =>
        if (extendChunks 0 env.chunks).2 then
          match stopContainer env.stopRes with
          | .panicked => (.panicked, [.created])
          | .proceeded =>
            match env.waitAfterStopRes with
            | .error e => (.ret (.error (.docker e)), [.created])
            | .ok exit => runCodeFinish env exit
        else if env.timedOut then
          match stopContainer env.stopRes with
          | .panicked => (.panicked, [.created])
          | .proceeded =>
            match env.waitAfterStopRes with
            | .error e => (.ret (.error (.docker e)), [.created])
            | .ok exit => runCodeFinish env exit
        else
          match env.waitRaceRes with
          | .error e => (.panicked, [.created])
          | .ok exit => runCodeFinish env exit

/-! ## Options parser (src/options_parser.rs, built on `nom` 6)

The grammar: whitespace-separated `identifier=value` pairs, where a value
is either an unquoted run of non-space non-quote characters or a quoted
string with backslash escapes for backslash and quote only; trailing
whitespace allowed; the whole input must be consumed; duplicate keys are
rejected when the pair list is folded into a map. `nom`'s recoverable
`Error` and unrecoverable `Failure` (produced by `cut` around the quoted
string body) are modelled as two distinct failure results. -/

/-- Result of a `nom` parser: success with remaining input, recoverable
error (`Err::Error`), or unrecoverable failure (`Err::Failure`, from
`cut`). -/
inductive PRes (α : Type) where
  | ok (rest : List Char) (v : α)
  | err
  | cut
deriving Repr, DecidableEq

/-- First character of `identifier`: `alt((alpha1, tag("_")))`. -/
def isIdentFirst (c : Char) : Bool := c.isAlpha || c = '_'

/-- Later characters of `identifier`: `alt((alphanumeric1, tag("_")))`. -/
def isIdentRest (c : Char) : Bool := c.isAlphanum || c = '_'

/-- `nom`'s `multispace` character class: space, tab, CR, LF. -/
def isSpaceChar (c : Char) : Bool :=
  c = ' ' || c = '\t' || c = '\n' || c = '\r'

/-- `quoteless_string`: `verify(is_not(" \""), non-empty)` — the longest
nonempty prefix free of spaces and double quotes. -/
def quotelessString (i : List Char) : PRes (List Char) :=
  let run := i.takeWhile (fun c => !(c = ' ' || c = '"'))
  if run.isEmpty then .err else .ok (i.drop run.length) run

/-- `identifier`: letter or underscore, then letters/digits/underscores,
maximal munch (`recognize(pair(alt((alpha1, tag("_"))),
many0(alt((alphanumeric1, tag("_"))))))`). -/
def identifier (i : List Char) : PRes (List Char) :=
  match i with
  | [] => .err
  | c :: _ =>
    if isIdentFirst c then
      let run := i.takeWhile isIdentRest
      .ok (i.drop run.length) run
    else .err

/-- The body of `escaped_transform(is_not("\\\""), backslash,
alt((backslash, quote)))`: consume ordinary characters and the two legal
escapes, decoding them, stopping at a quote or end of input; `none` on a
dangling backslash or an illegal escape. Returns decoded value and
remaining input. -/
def escLoop : List Char → Option (List Char × List Char)
  | [] => some ([], [])
  | c :: rest =>
    if c = '\\' then
      match rest with
      | [] => none
      | e :: rest' =>
        if e = '\\' || e = '"' then
          match escLoop rest' with
          | none => none
          | some (v, r) => some (e :: v, r)
        else none
    else if c = '"' then some ([], c :: rest)
    else
      match escLoop rest with
      | none => none
      | some (v, r) => some (c :: v, r)

/-- `quoted_string`: `preceded(char('"'),
cut(terminated(escaped_transform(...), char('"'))))` — failures after the
opening quote are unrecoverable. -/
def quotedString (i : List Char) : PRes (List Char) :=
  match i with
  | [] => .err
  | c :: rest =>
    if c = '"' then
      match escLoop rest with
      | none => .cut
      | some (v, r) =>
        match r with
        | [] => .cut
        | q :: r' => if q = '"' then .ok r' v else .cut
    else .err

/-- `string`: `alt((quoteless_string, quoted_string))`. -/
def stringValue (i : List Char) : PRes (List Char) :=
  match quotelessString i with
  | .ok r v => .ok r v
  | .cut => .cut
  | .err => quotedString i

/-- `key_value`: `separated_pair(identifier, char('='), string)`. -/
def keyValue (i : List Char) : PRes (List Char × List Char) :=
  match identifier i with
  | .err => .err
  | .cut => .cut
  | .ok r k =>
    match r with
    | [] => .err
    | c :: r' =>
      if c = '=' then
        match stringValue r' with
        | .err => .err
        | .cut => .cut
        | .ok r'' v => .ok r'' (k, v)
      else .err

/-- `multispace1`: one or more whitespace characters. -/
def multispace1 (i : List Char) : PRes Unit :=
  let run := i.takeWhile isSpaceChar
  if run.isEmpty then .err else .ok (i.drop run.length) ()

/-- The loop of `separated_list0(multispace1, key_value)`: try separator
then element; a recoverable failure of either ends the list (rolling the
separator back); an unrecoverable failure propagates. The separator
consumes at least one character on success, so fuel equal to the input
length makes the fuel bound unreachable. -/
def sepListLoop : Nat → List (List Char × List Char) → List Char →
    PRes (List (List Char × List Char))
  | 0, acc, i => .ok i acc
  | fuel + 1, acc, i =>
    match multispace1 i with
    | .err => .ok i acc
    | .cut => .cut
    | .ok i1 _ =>
      match keyValue i1 with
      | .err => .ok i acc
      | .cut => .cut
      | .ok i2 kv => sepListLoop fuel (acc ++ [kv]) i2

/-- `separated_list0(multispace1, key_value)`. -/
def sepList (i : List Char) : PRes (List (List Char × List Char)) :=
  match keyValue i with
  | .err => .ok i []
  | .cut => .cut
  | .ok i1 kv => sepListLoop i1.length [kv] i1

/-- `config`: `terminated(separated_list0(multispace1, key_value),
multispace0)`. -/
def config (i : List Char) : PRes (List (List Char × List Char)) :=
  match sepList i with
  | .err => .err
  | .cut => .cut
  | .ok r pairs => .ok (r.drop (r.takeWhile isSpaceChar).length) pairs

/-- The error alternatives of `parse_options` (each an `anyhow!` message
in the source). -/
inductive ParseError where
  | dupKey (k : List Char)
  | unconsumed (rest : List Char)
  | syntaxErr
deriving Repr, DecidableEq

/-- The fold of parsed pairs into a map: `HashMap::insert` returning
`Some` means a duplicate key, an error. The map is modelled as the
association list in insertion order. -/
def insertPairs (acc : List (List Char × List Char)) :
    List (List Char × List Char) →
    Except ParseError (List (List Char × List Char))
  | [] => .ok acc
  | (k, v) :: rest =>
    if (acc.map Prod.fst).contains k then .error (.dupKey k)
    else insertPairs (acc ++ [(k, v)]) rest

/-- `parse_options` (src/options_parser.rs lines 61-75): run `config`;
demand full consumption; fold the pairs rejecting duplicate keys. -/
def parse_options (conf : List Char) :
    Except ParseError (List (List Char × List Char)) :=
  match config conf with
  | .ok [] pairs => insertPairs [] pairs
  | .ok rest _ => .error (.unconsumed rest)
  | .err => .error .syntaxErr
  | .cut => .error .syntaxErr

/-! ### Re-serialization (for the round-trip property) -/

/-- Escape a value for quoting: backslash before each backslash or
quote. -/
def escapeValue : List Char → List Char
  | [] => []
  | c :: rest =>
    if c = '\\' || c = '"' then '\\' :: c :: escapeValue rest
    else c :: escapeValue rest

/-- One `k="escaped-v"` pair. -/
def renderPair (kv : List Char × List Char) : List Char :=
  kv.1 ++ '=' :: '"' :: (escapeValue kv.2 ++ ['"'])

/-- The rest of a rendered pair list: each further pair preceded by one
space. -/
def renderTail : List (List Char × List Char) → List Char
  | [] => []
  | kv :: rest => ' ' :: (renderPair kv ++ renderTail rest)

/-- Whitespace-separated `k=v` pairs, values quoted. -/
def renderPairs : List (List Char × List Char) → List Char
  | [] => []
  | kv :: rest => renderPair kv ++ renderTail rest

/-- A key acceptable to `identifier`. -/
def validIdent (k : List Char) : Bool :=
  match k with
  | [] => false
  | c :: rest => isIdentFirst c && rest.all isIdentRest

/-! ## Language catalog (src/lang.rs)

Each registered language variant contributes a `run_spec` resolver: it
consumes its declared option keys (with defaults), rejects leftover keys
as `UnknownKeys` and out-of-range values as `UnknownValue`, and builds a
`RunSpec`. The trait-object registry is embedded as a closed enumeration
of the 25 variants registered with `make_lang!`/`inventory::submit!`. -/

/-- `RunSpec` (src/runner.rs lines 24-28). -/
structure RunSpec where
  code_path : String
  image_name : String
  dockerfile : String
deriving Repr, DecidableEq

/-- `OptionsError` (src/lang.rs lines 8-14). -/
inductive OptionsError where
  | unknownKeys (keys : List String)
  | unknownValue (value : String)
deriving Repr, DecidableEq

/-- The option map handed to `run_spec` (`Options` in
src/options_parser.rs), as an association list with distinct keys. -/
abbrev Options := List (String × String)

/-- `HashMap::remove`: the removed value (if present) and the rest of
the map. -/
def optRemove (m : Options) (k : String) : Option String × Options :=
  (m.lookup k, m.filter (fun p => !(p.1 == k)))

/-- `bind_opts!(opts => {})`: no declared keys; any leftover key is an
error. -/
def bindOpts0 (opts : Options) : Except OptionsError Unit :=
  if opts.isEmpty then .ok ()
  else .error (.unknownKeys (opts.map Prod.fst))

/-- `bind_opts!(opts => { key or default })`. -/
def bindOpts1 (opts : Options) (key dflt : String) :
    Except OptionsError String :=
  let r := optRemove opts key
  if r.2.isEmpty then .ok (r.1.getD dflt)
  else .error (.unknownKeys (r.2.map Prod.fst))

/-- `bind_opts!(opts => { k1 or d1, k2 or d2 })`. -/
def bindOpts2 (opts : Options) (k1 d1 k2 d2 : String) :
    Except OptionsError (String × String) :=
  let r1 := optRemove opts k1
  let r2 := optRemove r1.2 k2
  if r2.2.isEmpty then .ok (r1.1.getD d1, r2.1.getD d2)
  else .error (.unknownKeys (r2.2.map Prod.fst))

/-- The 25 language variants registered in src/lang.rs. -/
inductive Lang where
  | sh | bash | zsh | python | javascript | typescript | perl | php
  | ruby | lua | julia | r | go | java | kotlin | groovy | csharp
  | swift | haskell | elixir | ocaml | c | cpp | rust | fortran
deriving Repr, DecidableEq

def shSpec : RunSpec :=
  ⟨"run.sh", "sh",
   "\nFROM alpine:3.13\nCMD [\"sh\", \"run.sh\"]\n"⟩

def bashSpec : RunSpec :=
  ⟨"run.sh", "bash",
   "\nFROM alpine:3.13\nRUN apk add --no-cache bash\nCMD [\"bash\", \"run.sh\"]\n"⟩

def zshSpec : RunSpec :=
  ⟨"run.sh", "zsh",
   "\nFROM alpine:3.13\nRUN apk add --no-cache zsh\nCMD [\"zsh\", \"run.sh\"]\n"⟩

def pythonSpec (version bundle pip_install : String) : RunSpec :=
  ⟨"run.py", "python" ++ version ++ "-" ++ bundle,
   "\nFROM python:" ++ version ++ "-slim-buster\nENV PYTHONUNBUFFERED=1\n"
     ++ pip_install ++ "\nCMD [\"python\", \"run.py\"]\n"⟩

def javascriptSpec (version : String) : RunSpec :=
  ⟨"index.js", "nodejs" ++ version,
   "\nFROM node:" ++ version ++ "-alpine\nCMD [\"node\", \"index.js\"]\n"⟩

def typescriptSpec : RunSpec :=
  ⟨"index.ts", "typescript",
   "\nFROM alpine:3.12.3\n\nENV DENO_VERSION=1.7.2\n\nRUN apk add --virtual .download --no-cache curl \\\n && curl -fsSL https://github.com/denoland/deno/releases/download/v${DENO_VERSION}/deno-x86_64-unknown-linux-gnu.zip \\\n         --output deno.zip \\\n && unzip deno.zip \\\n && rm deno.zip \\\n && chmod 755 deno \\\n && mv deno /bin/deno \\\n && apk del .download\n\n\nFROM gcr.io/distroless/cc\nCOPY --from=0 /bin/deno /bin/deno\n\nENV DENO_VERSION=1.7.2\nENV DENO_DIR deno\nENV DENO_INSTALL_ROOT /usr/local\nCMD [\"/bin/deno\", \"run\", \"--quiet\", \"index.ts\"]\n"⟩

def perlSpec : RunSpec :=
  ⟨"run.pl", "perl",
   "\nFROM perl:slim-buster\nCMD [\"perl\", \"run.pl\"]\n"⟩

def phpSpec : RunSpec :=
  ⟨"run.php", "php",
   "\nFROM php:8.0-alpine\nCMD [\"php\", \"run.php\"]\n"⟩

def rubySpec (version : String) : RunSpec :=
  ⟨"run.rb", "ruby" ++ version,
   "\nFROM ruby:" ++ version ++ "-alpine\nCMD [\"ruby\", \"run.rb\"]\n"⟩

def luaSpec (version : String) : RunSpec :=
  ⟨"run.lua", "lua" ++ version,
   "\nFROM alpine:edge\nRUN apk add --no-cache lua" ++ version
     ++ "\nCMD [\"lua" ++ version ++ "\", \"run.lua\"]\n"⟩

def juliaSpec (version : String) : RunSpec :=
  ⟨"run.jl", "julia" ++ version,
   "\nFROM julia:" ++ version ++ "\nCMD [\"julia\", \"run.jl\"]\n"⟩

def rSpec : RunSpec :=
  ⟨"run.R", "r",
   "\nFROM r-base\nCMD [\"Rscript\", \"run.R\"]\n"⟩

def goSpec (version : String) : RunSpec :=
  ⟨"main.go", "golang" ++ version,
   "\nFROM golang:" ++ version ++ "-alpine\n# So that we can build code\nENV GOCACHE=/tmp/.cache/go\nCMD [\"go\", \"run\", \"main.go\"]\n"⟩

def javaSpec (version : String) : RunSpec :=
  ⟨"code", "java-openjdk" ++ version,
   "\nFROM openjdk:" ++ version ++ "-jdk-slim-buster\n# The sed command grabs the classname from `public class Ident`\nCMD sh -c \\\n    'class=$(sed -n \"s/public\\s\\+class\\s\\+\\(\\w\\+\\).*/\\1/p\" code); \\\n     ln -s code $class.java && javac $class.java && java $class'\n"⟩

def kotlinSpec : RunSpec :=
  ⟨"main.kt", "kotlin",
   "\nFROM openjdk:11-jre-slim\nRUN apt-get update && apt-get install -y --no-install-recommends wget unzip && \\\n    rm -rf /var/lib/apt/lists/* && \\\n    cd /usr/lib && \\\n    wget -q https://github.com/JetBrains/kotlin/releases/download/v1.4.10/kotlin-compiler-1.4.10.zip && \\\n    unzip kotlin-compiler-*.zip && \\\n    apt-get remove -y wget unzip && \\\n    apt-get autoremove -y && \\\n    apt-get autoclean -y && \\\n    rm kotlin-compiler-*.zip && \\\n    rm -f kotlinc/bin/*.bat\nENV PATH $PATH:/usr/lib/kotlinc/bin\nCMD [\"sh\", \"-c\", \"kotlinc main.kt -include-runtime -d main.jar && java -jar main.jar\"]\n"⟩

def groovySpec (version : String) : RunSpec :=
  ⟨"run.groovy", "groovy" ++ version,
   "\nFROM groovy:" ++ version ++ "-jre11\nCMD [\"groovy\", \"run.groovy\"]\n"⟩

def csharpSpec : RunSpec :=
  ⟨"main.cs", "csharp",
   "\nFROM mono:6.12\nCMD [\"sh\", \"-c\", \"mcs -out:main.exe main.cs && mono main.exe\" ]\n"⟩

def swiftSpec (version : String) : RunSpec :=
  ⟨"main.swift", "swift" ++ version,
   "\nFROM swift:" ++ version ++ "\nCMD [\"swift\", \"main.swift\" ]\n"⟩

def haskellSpec : RunSpec :=
  ⟨"main.hs", "haskell",
   "\nFROM haskell\nCMD [\"runhaskell\", \"main.hs\"]\n"⟩

def elixirSpec (version : String) : RunSpec :=
  ⟨"run.exs", "elixir" ++ version,
   "\nFROM elixir:" ++ version ++ "-alpine\nCMD [\"elixir\", \"run.exs\"]\n"⟩

def ocamlSpec : RunSpec :=
  ⟨"main.ml", "ocaml",
   "\nFROM alpine:3.13\nRUN apk add --no-cache ocaml\nCMD [\"ocaml\", \"main.ml\"]\n"⟩

def cSpec : RunSpec :=
  ⟨"main.c", "c-gcc",
   "\nFROM gcc:latest\nCMD [\"sh\", \"-c\", \"gcc -Wall -Wextra main.c -o main && ./main\"]\n"⟩

def cppSpec : RunSpec :=
  ⟨"main.cpp", "cpp-gcc",
   "\nFROM gcc:latest\nCMD [\"sh\", \"-c\", \"g++ -Wall -Wextra main.cpp -o main && ./main\"]\n"⟩

def rustSpec : RunSpec :=
  ⟨"main.rs", "rust",
   "\nFROM rust:alpine\nCMD [\"sh\", \"-c\", \"rustc main.rs -o main && ./main\"]\n"⟩

def fortranSpec : RunSpec :=
  ⟨"main.f95", "fortran",
   "\nFROM gcc:latest\nCMD [\"sh\", \"-c\", \"gfortran -Wall -Wextra main.f95 -o main && ./main\"]\n"⟩

/-- `match bundle.as_str() { "none" => "", "scipy" => "RUN pip install
numpy scipy sympy", _ => Err(UnknownValue) }` for Python. -/
def pipInstallFor (bundle : String) : Option String :=
  if bundle = "none" then some ""
  else if bundle = "scipy" then some "RUN pip install numpy scipy sympy"
  else none

/-- `Language::run_spec` for each variant (src/lang.rs lines 89-716).
The per-variant `match version.as_str()` alternations become explicit
disjunctions of equalities. -/
def Lang.runSpec : Lang → Options → Except OptionsError RunSpec
  | .sh, opts =>
    match bindOpts0 opts with
    | .error e => .error e
    | .ok _ => .ok shSpec
  | .bash, opts =>
    match bindOpts0 opts with
    | .error e => .error e
    | .ok _ => .ok bashSpec
  | .zsh, opts =>
    match bindOpts0 opts with
    | .error e => .error e
    | .ok _ => .ok zshSpec
  | .python, opts =>
    match bindOpts2 opts "version" "3.9" "bundle" "scipy" with
    | .error e => .error e
    | .ok (version, bundle) =>
      if version = "3.9" ∨ version = "3.8" ∨ version = "3.7"
          ∨ version = "3.6" then
        match pipInstallFor bundle with
        | none => .error (.unknownValue bundle)
        | some pip => .ok (pythonSpec version bundle pip)
      else .error (.unknownValue version)
  | .javascript, opts =>
    match bindOpts1 opts "version" "15" with
    | .error e => .error e
    | .ok version =>
      if version = "15" ∨ version = "14" ∨ version = "12"
          ∨ version = "10" then .ok (javascriptSpec version)
      else .error (.unknownValue version)
  | .typescript, opts =>
    match bindOpts0 opts with
    | .error e => .error e
    | .ok _ => .ok typescriptSpec
  | .perl, opts =>
    match bindOpts0 opts with
    | .error e => .error e
    | .ok _ => .ok perlSpec
  | .php, opts =>
    match bindOpts0 opts with
    | .error e => .error e
    | .ok _ => .ok phpSpec
  | .ruby, opts =>
    match bindOpts1 opts "version" "3.0" with
    | .error e => .error e
    | .ok version =>
      if version = "3.0" ∨ version = "2.7" ∨ version = "2.6"
          ∨ version = "2.5" then .ok (rubySpec version)
      else .error (.unknownValue version)
  | .lua, opts =>
    match bindOpts1 opts "version" "5.4" with
    | .error e => .error e
    | .ok version =>
      if version = "5.4" ∨ version = "5.3" ∨ version = "5.2"
          ∨ version = "5.1" then .ok (luaSpec version)
      else .error (.unknownValue version)
  | .julia, opts =>
    match bindOpts1 opts "version" "1.6" with
    | .error e => .error e
    | .ok version =>
      if version = "1.6" ∨ version = "1.5" ∨ version = "1.0" then
        .ok (juliaSpec version)
      else .error (.unknownValue version)
  | .r, opts =>
    match bindOpts0 opts with
    | .error e => .error e
    | .ok _ => .ok rSpec
  | .go, opts =>
    match bindOpts1 opts "version" "1.16" with
    | .error e => .error e
    | .ok version =>
      if version = "1.16" ∨ version = "1.15" then .ok (goSpec version)
      else .error (.unknownValue version)
  | .java, opts =>
    match bindOpts1 opts "version" "15" with
    | .error e => .error e
    | .ok version =>
      if version = "17" ∨ version = "16" ∨ version = "15"
          ∨ version = "11" ∨ version = "8" then .ok (javaSpec version)
      else .error (.unknownValue version)
  | .kotlin, opts =>
    match bindOpts0 opts with
    | .error e => .error e
    | .ok _ => .ok kotlinSpec
  | .groovy, opts =>
    match bindOpts1 opts "version" "3.0" with
    | .error e => .error e
    | .ok version =>
      if version = "4.0" ∨ version = "3.0" then .ok (groovySpec version)
      else .error (.unknownValue version)
  | .csharp, opts =>
    match bindOpts0 opts with
    | .error e => .error e
    | .ok _ => .ok csharpSpec
  | .swift, opts =>
    match bindOpts1 opts "version" "5.3" with
    | .error e => .error e
    | .ok version =>
      if version = "5.3" ∨ version = "5.2" ∨ version = "5.1" then
        .ok (swiftSpec version)
      else .error (.unknownValue version)
  | .haskell, opts =>
    match bindOpts0 opts with
    | .error e => .error e
    | .ok _ => .ok haskellSpec
  | .elixir, opts =>
    match bindOpts1 opts "version" "1.11" with
    | .error e => .error e
    | .ok version =>
      if version = "1.11" ∨ version = "1.10" ∨ version = "1.9"
          ∨ version = "1.8" ∨ version = "1.7" ∨ version = "1.6" then
        .ok (elixirSpec version)
      else .error (.unknownValue version)
  | .ocaml, opts =>
    match bindOpts0 opts with
    | .error e => .error e
    | .ok _ => .ok ocamlSpec
  | .c, opts =>
    match bindOpts0 opts with
    | .error e => .error e
    | .ok _ => .ok cSpec
  | .cpp, opts =>
    match bindOpts0 opts with
    | .error e => .error e
    | .ok _ => .ok cppSpec
  | .rust, opts =>
    match bindOpts0 opts with
    | .error e => .error e
    | .ok _ => .ok rustSpec
  | .fortran, opts =>
    match bindOpts0 opts with
    | .error e => .error e
    | .ok _ => .ok fortranSpec

/-- Every `(variant, RunSpec)` pair producible by a successful
`run_spec`, fully enumerated. -/
def allSpecs : List (Lang × RunSpec) :=
  [(.sh, shSpec), (.bash, bashSpec), (.zsh, zshSpec)]
  ++ [(.python, pythonSpec "3.9" "none" ""),
      (.python, pythonSpec "3.8" "none" ""),
      (.python, pythonSpec "3.7" "none" ""),
      (.python, pythonSpec "3.6" "none" ""),
      (.python, pythonSpec "3.9" "scipy" "RUN pip install numpy scipy sympy"),
      (.python, pythonSpec "3.8" "scipy" "RUN pip install numpy scipy sympy"),
      (.python, pythonSpec "3.7" "scipy" "RUN pip install numpy scipy sympy"),
      (.python, pythonSpec "3.6" "scipy" "RUN pip install numpy scipy sympy")]
  ++ [(.javascript, javascriptSpec "15"), (.javascript, javascriptSpec "14"),
      (.javascript, javascriptSpec "12"), (.javascript, javascriptSpec "10")]
  ++ [(.typescript, typescriptSpec), (.perl, perlSpec), (.php, phpSpec)]
  ++ [(.ruby, rubySpec "3.0"), (.ruby, rubySpec "2.7"),
      (.ruby, rubySpec "2.6"), (.ruby, rubySpec "2.5")]
  ++ [(.lua, luaSpec "5.4"), (.lua, luaSpec "5.3"),
      (.lua, luaSpec "5.2"), (.lua, luaSpec "5.1")]
  ++ [(.julia, juliaSpec "1.6"), (.julia, juliaSpec "1.5"),
      (.julia, juliaSpec "1.0")]
  ++ [(.r, rSpec)]
  ++ [(.go, goSpec "1.16"), (.go, goSpec "1.15")]
  ++ [(.java, javaSpec "17"), (.java, javaSpec "16"), (.java, javaSpec "15"),
      (.java, javaSpec "11"), (.java, javaSpec "8")]
  ++ [(.kotlin, kotlinSpec)]
  ++ [(.groovy, groovySpec "4.0"), (.groovy, groovySpec "3.0")]
  ++ [(.csharp, csharpSpec)]
  ++ [(.swift, swiftSpec "5.3"), (.swift, swiftSpec "5.2"),
      (.swift, swiftSpec "5.1")]
  ++ [(.haskell, haskellSpec)]
  ++ [(.elixir, elixirSpec "1.11"), (.elixir, elixirSpec "1.10"),
      (.elixir, elixirSpec "1.9"), (.elixir, elixirSpec "1.8"),
      (.elixir, elixirSpec "1.7"), (.elixir, elixirSpec "1.6")]
  ++ [(.ocaml, ocamlSpec), (.c, cSpec), (.cpp, cppSpec), (.rust, rustSpec),
      (.fortran, fortranSpec)]

end Codie

namespace Codie

/-! ### Facts about the encoder -/

theorem backtick_ne_grave : backtickChar ≠ graveChar := by decide

theorem escapeCodeblock_nil : escapeCodeblock [] = [] := by
  simp [escapeCodeblock]

theorem escapeCodeblock_fence (rest : List Char)
    (h : (fenceChars ++ rest).take 3 = fenceChars) :
    escapeCodeblock (fenceChars ++ rest) =
      graveFence ++ escapeCodeblock rest := by
  conv_lhs => rw [escapeCodeblock.eq_def]
  simp only [fenceChars, List.cons_append, List.nil_append] at h ⊢
  rw [if_pos h]
  simp

theorem escapeCodeblock_cons (c : Char) (rest : List Char)
    (h : ¬ (c :: rest).take 3 = fenceChars) :
    escapeCodeblock (c :: rest) = c :: escapeCodeblock rest := by
  conv_lhs => rw [escapeCodeblock.eq_def]
  simp only
  rw [if_neg h]

/-- Escaping preserves the codepoint length: each fence (3 chars) is
replaced by 3 chars. -/
theorem escapeCodeblock_length (l : List Char) :
    (escapeCodeblock l).length = l.length := by
  induction l using escapeCodeblock.induct with
  | case1 => simp [escapeCodeblock]
  | case2 c rest h ih =>
    have hlen : 2 ≤ rest.length := by
      have := congrArg List.length h
      simp [fenceChars] at this
      omega
    rw [escapeCodeblock]
    rw [if_pos h]
    simp [graveFence, ih]
    omega
  | case3 c rest h ih =>
    rw [escapeCodeblock_cons c rest h]
    simp [ih]

theorem hasFence_nil : ¬ hasFence [] := by
  rintro ⟨a, b, h⟩
  simp [fenceChars] at h

/-- Prepending the three-grave replacement cannot create a fence. -/
theorem noFence_graveFence_append (xs : List Char) (hxs : ¬ hasFence xs) :
    ¬ hasFence (graveFence ++ xs) := by
  rintro ⟨a, b, h⟩
  match a with
  | [] =>
    simp [fenceChars, graveFence] at h
    exact absurd h.1 (by decide)
  | [c1] =>
    simp [fenceChars, graveFence] at h
    exact absurd h.2.1 (by decide)
  | [c1, c2] =>
    simp [fenceChars, graveFence] at h
    exact absurd h.2.2.1 (by decide)
  | c1 :: c2 :: c3 :: a' =>
    simp only [graveFence, List.cons_append, List.nil_append,
      List.cons.injEq, List.append_assoc] at h
    exact hxs ⟨a', b, by rw [List.append_assoc]; exact h.2.2.2⟩

/-- Core invariant of `escape_codeblock`: its result never contains the
fence delimiter, and it only begins with one or two backticks when its
input did. -/
theorem escapeCodeblock_invariant (l : List Char) :
    ¬ hasFence (escapeCodeblock l) ∧
    (∀ t, escapeCodeblock l = backtickChar :: t →
      ∃ t', l = backtickChar :: t') ∧
    (∀ t, escapeCodeblock l = backtickChar :: backtickChar :: t →
      ∃ t', l = backtickChar :: backtickChar :: t') := by
  induction l using escapeCodeblock.induct with
  | case1 =>
    refine ⟨by simpa [escapeCodeblock] using hasFence_nil, ?_, ?_⟩ <;>
      intro t ht <;> simp [escapeCodeblock] at ht
  | case2 c rest h ih =>
    have hl : c :: rest = fenceChars ++ rest.drop 2 := by
      have h3 : 2 ≤ rest.length := by
        have := congrArg List.length h
        simp [fenceChars] at this
        omega
      calc c :: rest = (c :: rest).take 3 ++ (c :: rest).drop 3 :=
            (List.take_append_drop 3 (c :: rest)).symm
        _ = fenceChars ++ rest.drop 2 := by rw [h]; simp
    rw [hl, escapeCodeblock_fence _ (by rw [← hl]; exact h)]
    refine ⟨noFence_graveFence_append _ ih.1, ?_, ?_⟩ <;>
      intro t ht <;>
      · exfalso
        simp only [graveFence, List.cons_append] at ht
        have : graveChar = backtickChar := by
          injection ht with h1 _
        exact absurd this.symm (by decide)
  | case3 c rest h ih =>
    rw [escapeCodeblock_cons c rest h]
    obtain ⟨ihF, ih1, ih2⟩ := ih
    refine ⟨?_, ?_, ?_⟩
    · rintro ⟨a, b, hab⟩
      match a with
      | [] =>
        simp only [fenceChars, List.nil_append, List.cons_append,
          List.cons.injEq] at hab
        obtain ⟨hc, hrest⟩ := hab
        obtain ⟨t', ht'⟩ := ih2 b hrest
        apply h
        rw [hc, ht']
        simp [fenceChars, List.take_cons]
      | c' :: a' =>
        simp only [List.cons_append, List.cons.injEq, List.append_assoc] at hab
        exact ihF ⟨a', b, by rw [List.append_assoc]; exact hab.2⟩
    · intro t ht
      injection ht with h1 h2
      exact ⟨rest, by rw [h1]⟩
    · intro t ht
      injection ht with h1 h2
      obtain ⟨t', ht'⟩ := ih1 t h2
      exact ⟨t', by rw [h1, ht']⟩

/-- The escaped captured text contains no fence delimiter. -/
theorem escapeCodeblock_noFence (l : List Char) :
    ¬ hasFence (escapeCodeblock l) :=
  (escapeCodeblock_invariant l).1

theorem maxOutputCodepoints_eq : maxOutputCodepoints = 1946 := by
  decide

theorem overheadText_length : overheadText.length = 54 := by
  decide

/-- Length of the rendered message, in codepoints. -/
theorem renderOutput_length (o : Output) :
    (renderOutput o).length =
      (if o.status = 0 then 0 else 18 + (Nat.repr o.status).length)
        + 7 + o.tty.length := by
  unfold renderOutput Output.success statusLine
  rcases Nat.eq_zero_or_pos o.status with h | h
  · simp [h, escapeCodeblock_length]
    omega
  · have : ¬ o.status = 0 := by omega
    simp [this, escapeCodeblock_length]
    omega

set_option maxRecDepth 4000 in
/-- Any exit status the engine can report (0-255) prints in at most 3
digits. -/
theorem repr_length_le_three : ∀ s < 256, (Nat.repr s).length ≤ 3 := by
  decide

/-- Evaluated forms of the two string literals flanking the code block. -/
theorem openFence_toList :
    "```\n".toList = [backtickChar, backtickChar, backtickChar, '\n'] := by
  decide

theorem closeFence_toList :
    "```".toList = [backtickChar, backtickChar, backtickChar] := by
  decide

/-- **C7** (amended): the rendering begins with the bold exit-status line
exactly when `status != 0`; the escaped captured text contains no fence
delimiter; but the fenced block is always emitted, even when the captured
text is empty and the status is 0 (the code never omits it). -/
theorem C7_encoder_amended (o : Output) :
    (o.status ≠ 0 → renderOutput o =
      statusLine o.status ++ "```\n".toList
        ++ escapeCodeblock o.tty ++ "```".toList) ∧
    (o.status = 0 → renderOutput o =
      "```\n".toList ++ escapeCodeblock o.tty ++ "```".toList) ∧
    (o.status = 0 →
      ¬ ∃ rest, renderOutput o = "**EXIT STATUS:** ".toList ++ rest) ∧
    ¬ hasFence (escapeCodeblock o.tty) := by
  have hzero : renderOutput o = (if o.success then [] else statusLine o.status)
      ++ "```\n".toList ++ escapeCodeblock o.tty ++ "```".toList := rfl
  refine ⟨?_, ?_, ?_, escapeCodeblock_noFence o.tty⟩
  · intro h
    rw [hzero]
    have : o.success = false := by
      simp [Output.success, h]
    rw [this]
    simp
  · intro h
    rw [hzero]
    have : o.success = true := by simp [Output.success, h]
    rw [this]
    simp
  · intro h ⟨rest, hr⟩
    have hs : o.success = true := by simp [Output.success, h]
    rw [hzero, hs] at hr
    simp only [if_pos, List.nil_append, openFence_toList] at hr
    have hstar : "**EXIT STATUS:** ".toList
        = '*' :: "*EXIT STATUS:** ".toList := by decide
    rw [hstar, List.cons_append, List.cons_append] at hr
    have : backtickChar = '*' := by injection hr with h1 _
    exact absurd this (by decide)

/-- **C7** counterexample to the claim as stated: with empty captured
text and status 0, the fenced block is *not* omitted — the rendering is
exactly the empty fenced block. -/
theorem C7_encoder_counterexample :
    renderOutput (Output.mk 0 []) = "```\n```".toList ∧
    renderOutput (Output.mk 0 []) ≠ [] := by
  constructor
  · show (if (Output.mk 0 []).success then [] else statusLine 0)
        ++ "```\n".toList ++ escapeCodeblock [] ++ "```".toList
      = "```\n```".toList
    rw [escapeCodeblock_nil]
    decide
  · intro h
    have := congrArg List.length h
    rw [renderOutput_length] at this
    simp at this

/-- Witness instantiating `C7_encoder_amended` at a concrete `Output`. -/
theorem C7_encoder_witness :
    renderOutput (Output.mk 137 [backtickChar]) =
      statusLine 137 ++ "```\n".toList
        ++ escapeCodeblock [backtickChar] ++ "```".toList ∧
    ¬ hasFence (escapeCodeblock [backtickChar]) :=
  ⟨(C7_encoder_amended (Output.mk 137 [backtickChar])).1 (by decide),
   (C7_encoder_amended (Output.mk 137 [backtickChar])).2.2.2⟩

/-- **C5** counterexample: an `Output` whose tty respects the budget plus
marker (1949 codepoints) and whose status is one the engine reports after
a force-stop (137 = SIGKILL) renders to 1977 codepoints; adding the
mention-prefix overhead (24 codepoints, as budgeted by the code's own
overhead stand-in) gives 2001 > 2000, exceeding the platform limit — the
newline the encoder writes after the opening fence is not accounted for
in the overhead string. A fortiori the rendered length plus the whole
fixed overhead (54) exceeds the limit. -/
theorem C5_budget_overhead_counterexample :
    (Output.mk 137 (List.replicate 1946 'x' ++ ['.', '.', '.'])).tty.length
        ≤ maxOutputCodepoints + truncationMarkerLen ∧
    messageCodeLimit <
      (renderOutput (Output.mk 137
          (List.replicate 1946 'x' ++ ['.', '.', '.']))).length
        + mentionPrefixText.length ∧
    messageCodeLimit <
      (renderOutput (Output.mk 137
          (List.replicate 1946 'x' ++ ['.', '.', '.']))).length
        + overheadText.length := by
  have htty : (List.replicate 1946 'x' ++ (['.', '.', '.'] : List Char)).length
      = 1949 := by
    rw [List.length_append, List.length_replicate]
    decide
  have hrender : (renderOutput (Output.mk 137
      (List.replicate 1946 'x' ++ ['.', '.', '.']))).length = 1977 := by
    rw [renderOutput_length]
    have hrepr : (Nat.repr 137).length = 3 := by decide
    simp only [htty, hrepr]
    norm_num
  refine ⟨?_, ?_, ?_⟩
  · show (List.replicate 1946 'x' ++ (['.', '.', '.'] : List Char)).length
        ≤ maxOutputCodepoints + truncationMarkerLen
    rw [htty]
    decide
  · rw [hrender]
    decide
  · rw [hrender]
    decide

/-- **C5** (amended): the budget equals the platform limit minus the
fixed overhead, and for every `Output` whose tty respects the budget plus
marker and whose status is in the engine's 0-255 range, the rendered
message plus the mention-prefix overhead exceeds the platform limit by at
most one codepoint (the unaccounted newline after the opening fence);
it cannot exceed it further. -/
theorem C5_budget_overhead_amended (o : Output)
    (hstatus : o.status < 256)
    (htty : o.tty.length ≤ maxOutputCodepoints + truncationMarkerLen) :
    maxOutputCodepoints = messageCodeLimit - overheadText.length ∧
    (renderOutput o).length + mentionPrefixText.length
      ≤ messageCodeLimit + 1 := by
  refine ⟨rfl, ?_⟩
  have hd : (Nat.repr o.status).length ≤ 3 := repr_length_le_three _ hstatus
  rw [renderOutput_length]
  have hmax : maxOutputCodepoints = 1946 := by decide
  have hm : mentionPrefixText.length = 24 := by decide
  have ht : truncationMarkerLen = 3 := rfl
  rw [hmax, ht] at htty
  rw [hm]
  have hlimit : messageCodeLimit = 2000 := rfl
  rw [hlimit]
  split
  · omega
  · omega

/-- Witness instantiating `C5_budget_overhead_amended` at a concrete
`Output`. -/
theorem C5_budget_overhead_witness :
    maxOutputCodepoints = messageCodeLimit - overheadText.length ∧
    (renderOutput (Output.mk 0 [])).length + mentionPrefixText.length
      ≤ messageCodeLimit + 1 :=
  C5_budget_overhead_amended (Output.mk 0 []) (by decide) (by decide)

/-! ### UTF-8 decoder lemmas -/

theorem isContByte_of_firstCont {b b1 : Nat}
    (h1 : firstContLo b ≤ b1) (h2 : b1 < firstContHi b) :
    isContByte b1 = true := by
  simp only [firstContLo] at h1
  simp only [firstContHi] at h2
  unfold isContByte
  simp only [Bool.and_eq_true, decide_eq_true_eq]
  split_ifs at h1 h2 <;> omega

theorem utf8Decode_nil : utf8Decode [] = some [] := rfl



/-- One-step inversion for `utf8DecodeOne`: on success the input splits
as `pre ++ rest` where `pre` (the encoding of the codepoint) is nonempty,
all bytes of `pre` after the first are continuation bytes, and the step
behaves identically whatever follows `pre`. -/
theorem utf8DecodeOne_inv {b : Nat} {bs : List Nat} {cp : Nat}
    {rest : List Nat} (h : utf8DecodeOne (b :: bs) = some (cp, rest)) :
    ∃ pre, b :: bs = pre ++ rest ∧ 0 < pre.length ∧
      (∀ y ∈ pre.tail, isContByte y = true) ∧
      (∀ t, utf8DecodeOne (pre ++ t) = some (cp, t)) := by
  rw [utf8DecodeOne.eq_def] at h
  simp only at h
  by_cases h80 : b < 0x80
  · rw [if_pos h80] at h
    obtain ⟨h1, h2⟩ : b = cp ∧ bs = rest := by
      have := h
      simp at this
      exact this
    refine ⟨[b], by simp [h2], by simp, by simp, ?_⟩
    intro t
    rw [List.cons_append, List.nil_append, utf8DecodeOne.eq_def]
    simp only
    rw [if_pos h80, h1]
  · rw [if_neg h80] at h
    by_cases hC2 : b < 0xC2
    · rw [if_pos hC2] at h
      exact absurd h (by simp)
    · rw [if_neg hC2] at h
      by_cases hE0 : b < 0xE0
      · rw [if_pos hE0] at h
        match bs with
        | [] => exact absurd h (by simp)
        | b1 :: bs' =>
          simp only at h
          by_cases hc1 : isContByte b1
          · rw [if_pos hc1] at h
            obtain ⟨h1, h2⟩ : (b - 0xC0) * 64 + (b1 - 0x80) = cp
                ∧ bs' = rest := by
              have := h
              simp at this
              exact this
            refine ⟨[b, b1], by simp [h2], by simp, ?_, ?_⟩
            · intro y hy
              simp at hy
              rw [hy]
              exact hc1
            · intro t
              rw [List.cons_append, List.cons_append, List.nil_append,
                utf8DecodeOne.eq_def]
              simp only
              rw [if_neg h80, if_neg hC2, if_pos hE0]
              simp only [if_pos hc1, h1]
          · rw [if_neg hc1] at h
            exact absurd h (by simp)
      · rw [if_neg hE0] at h
        by_cases hF0 : b < 0xF0
        · rw [if_pos hF0] at h
          match bs with
          | [] => exact absurd h (by simp)
          | [b1] => exact absurd h (by simp)
          | b1 :: b2 :: bs' =>
            simp only at h
            by_cases hc : ((firstContLo b ≤ b1 && b1 < firstContHi b)
                && isContByte b2) = true
            · rw [if_pos hc] at h
              obtain ⟨h1, h2⟩ : (b - 0xE0) * 4096 + (b1 - 0x80) * 64
                  + (b2 - 0x80) = cp ∧ bs' = rest := by
                have := h
                simp at this
                exact this
              have hc' := hc
              simp only [Bool.and_eq_true, decide_eq_true_eq] at hc'
              have hc1 : isContByte b1 = true :=
                isContByte_of_firstCont hc'.1.1 hc'.1.2
              have hc2 : isContByte b2 = true := hc'.2
              refine ⟨[b, b1, b2], by simp [h2], by simp, ?_, ?_⟩
              · intro y hy
                simp at hy
                rcases hy with hy | hy <;> rw [hy] <;> assumption
              · intro t
                rw [List.cons_append, List.cons_append, List.cons_append,
                  List.nil_append, utf8DecodeOne.eq_def]
                simp only
                rw [if_neg h80, if_neg hC2, if_neg hE0, if_pos hF0]
                simp only [if_pos hc, h1]
            · rw [if_neg hc] at h
              exact absurd h (by simp)
        · rw [if_neg hF0] at h
          by_cases hF5 : b < 0xF5
          · rw [if_pos hF5] at h
            match bs with
            | [] => exact absurd h (by simp)
            | [b1] => exact absurd h (by simp)
            | [b1, b2] => exact absurd h (by simp)
            | b1 :: b2 :: b3 :: bs' =>
              simp only at h
              by_cases hc : ((firstContLo b ≤ b1 && b1 < firstContHi b)
                  && isContByte b2 && isContByte b3) = true
              · rw [if_pos hc] at h
                obtain ⟨h1, h2⟩ : (b - 0xF0) * 262144 + (b1 - 0x80) * 4096
                    + (b2 - 0x80) * 64 + (b3 - 0x80) = cp ∧ bs' = rest := by
                  have := h
                  simp at this
                  exact this
                have hc' := hc
                simp only [Bool.and_eq_true, decide_eq_true_eq] at hc'
                have hc1 : isContByte b1 = true :=
                  isContByte_of_firstCont hc'.1.1.1 hc'.1.1.2
                have hc2 : isContByte b2 = true := hc'.1.2
                have hc3 : isContByte b3 = true := hc'.2
                refine ⟨[b, b1, b2, b3], by simp [h2], by simp, ?_, ?_⟩
                · intro y hy
                  simp at hy
                  rcases hy with hy | hy | hy <;> rw [hy] <;> assumption
                · intro t
                  rw [List.cons_append, List.cons_append, List.cons_append,
                    List.cons_append, List.nil_append, utf8DecodeOne.eq_def]
                  simp only
                  rw [if_neg h80, if_neg hC2, if_neg hE0, if_neg hF0,
                    if_pos hF5]
                  simp only [if_pos hc, h1]
              · rw [if_neg hc] at h
                exact absurd h (by simp)
          · rw [if_neg hF5] at h
            exact absurd h (by simp)

/-- A successful step never starts at a continuation byte. -/
theorem utf8DecodeOne_head_not_cont {b : Nat} {bs : List Nat}
    {r : Nat × List Nat} (h : utf8DecodeOne (b :: bs) = some r) :
    isContByte b = false := by
  by_cases h80 : b < 0x80
  · simp only [isContByte, Bool.and_eq_false_iff]
    left
    simp
    omega
  · by_cases hC2 : b < 0xC2
    · rw [utf8DecodeOne.eq_def] at h
      simp only at h
      rw [if_neg h80, if_pos hC2] at h
      exact absurd h (by simp)
    · simp only [isContByte, Bool.and_eq_false_iff]
      right
      simp
      omega

/-- The fuel argument is irrelevant once it reaches the list length. -/
theorem utf8DecodeFuel_irrel :
    ∀ (f1 : Nat) (l : List Nat) (f2 : Nat), l.length ≤ f1 → l.length ≤ f2 →
      utf8DecodeFuel f1 l = utf8DecodeFuel f2 l := by
  intro f1
  induction f1 with
  | zero =>
    intro l f2 h1 h2
    have : l = [] := by
      cases l
      · rfl
      · simp at h1
    subst this
    cases f2 <;> rfl
  | succ f ih =>
    intro l f2 h1 h2
    match l with
    | [] => cases f2 <;> rfl
    | b :: bs =>
      cases f2 with
      | zero => simp at h2
      | succ f2' =>
        rw [utf8DecodeFuel, utf8DecodeFuel]
        cases hone : utf8DecodeOne (b :: bs) with
        | none => rfl
        | some r =>
          obtain ⟨cp, rest⟩ := r
          dsimp only
          obtain ⟨pre, hsplit, hpos, -, -⟩ := utf8DecodeOne_inv hone
          have hlen : rest.length < bs.length + 1 := by
            have := congrArg List.length hsplit
            simp at this
            omega
          simp only [List.length_cons] at h1 h2
          rw [ih rest f2' (by omega) (by omega)]

/-- Unfolding `utf8Decode` one codepoint at a time. -/
theorem utf8Decode_cons (b : Nat) (bs : List Nat) :
    utf8Decode (b :: bs) =
      match utf8DecodeOne (b :: bs) with
      | none => none
      | some (cp, rest) => (utf8Decode rest).map (cp :: ·) := by
  show utf8DecodeFuel (b :: bs).length (b :: bs) = _
  rw [List.length_cons, utf8DecodeFuel]
  cases hone : utf8DecodeOne (b :: bs) with
  | none => rfl
  | some r =>
    obtain ⟨cp, rest⟩ := r
    dsimp only
    obtain ⟨pre, hsplit, hpos, -, -⟩ := utf8DecodeOne_inv hone
    have hlen : rest.length < bs.length + 1 := by
      have := congrArg List.length hsplit
      simp at this
      omega
    rw [utf8DecodeFuel_irrel bs.length rest rest.length (by omega) le_rfl]
    rfl

/-- Decode-level one-step inversion. -/
theorem utf8Decode_cons_inv {b : Nat} {bs s : List Nat}
    (h : utf8Decode (b :: bs) = some s) :
    ∃ pre rest cp s', b :: bs = pre ++ rest ∧ s = cp :: s' ∧
      utf8Decode rest = some s' ∧ 0 < pre.length ∧
      (∀ y ∈ pre.tail, isContByte y = true) ∧
      (∀ t, utf8Decode (pre ++ t) = (utf8Decode t).map (cp :: ·)) := by
  rw [utf8Decode_cons] at h
  cases hone : utf8DecodeOne (b :: bs) with
  | none => rw [hone] at h; exact absurd h (by simp)
  | some r =>
    obtain ⟨cp, rest⟩ := r
    rw [hone] at h
    simp only [Option.map_eq_some'] at h
    obtain ⟨s', hs', hmap⟩ := h
    obtain ⟨pre, hsplit, hpos, htail, hcomp⟩ := utf8DecodeOne_inv hone
    refine ⟨pre, rest, cp, s', hsplit, hmap.symm, hs', hpos, htail, ?_⟩
    intro t
    obtain ⟨p0, pt, hpre⟩ : ∃ p0 pt, pre = p0 :: pt := by
      cases pre with
      | nil => simp at hpos
      | cons p0 pt => exact ⟨p0, pt, rfl⟩
    subst hpre
    rw [List.cons_append, utf8Decode_cons]
    have hstep := hcomp t
    rw [List.cons_append] at hstep
    rw [hstep]

/-- A decoded string never has more codepoints than the input has
bytes. -/
theorem utf8Decode_length_le :
    ∀ (l s : List Nat), utf8Decode l = some s → s.length ≤ l.length := by
  have key : ∀ (n : Nat) (l s : List Nat), l.length ≤ n →
      utf8Decode l = some s → s.length ≤ l.length := by
    intro n
    induction n with
    | zero =>
      intro l s hlen h
      cases l with
      | nil =>
        have : s = [] := by
          rw [utf8Decode_nil] at h
          exact (Option.some_inj.mp h).symm
        simp [this]
      | cons b bs => simp at hlen
    | succ n ih =>
      intro l s hlen h
      cases l with
      | nil =>
        have : s = [] := by
          rw [utf8Decode_nil] at h
          exact (Option.some_inj.mp h).symm
        simp [this]
      | cons b bs =>
        obtain ⟨pre, rest, cp, s', hsplit, hs, hrest, hpos, -, -⟩ :=
          utf8Decode_cons_inv h
        have hx := congrArg List.length hsplit
        simp only [List.length_cons, List.length_append] at hx hlen
        have := ih rest s' (by omega) hrest
        subst hs
        simp only [List.length_cons]
        omega
  intro l s h
  exact key l.length l s le_rfl h

/-- A successfully decoded prefix composes with decoding of the rest. -/
theorem utf8Decode_append :
    ∀ (a s : List Nat), utf8Decode a = some s →
      ∀ r, utf8Decode (a ++ r) = (utf8Decode r).map (s ++ ·) := by
  have key : ∀ (n : Nat) (a s : List Nat), a.length ≤ n →
      utf8Decode a = some s →
      ∀ r, utf8Decode (a ++ r) = (utf8Decode r).map (s ++ ·) := by
    intro n
    induction n with
    | zero =>
      intro a s hlen h r
      cases a with
      | nil =>
        have : s = [] := by
          rw [utf8Decode_nil] at h
          exact (Option.some_inj.mp h).symm
        subst this
        simp only [List.nil_append]
        cases utf8Decode r <;> simp
      | cons b bs => simp at hlen
    | succ n ih =>
      intro a s hlen h r
      cases a with
      | nil =>
        have : s = [] := by
          rw [utf8Decode_nil] at h
          exact (Option.some_inj.mp h).symm
        subst this
        simp only [List.nil_append]
        cases utf8Decode r <;> simp
      | cons b bs =>
        obtain ⟨pre, rest, cp, s', hsplit, hs, hrest, hpos, -, hcomp⟩ :=
          utf8Decode_cons_inv h
        have hx := congrArg List.length hsplit
        simp only [List.length_cons, List.length_append] at hx hlen
        have hrec := ih rest s' (by omega) hrest r
        calc utf8Decode (b :: bs ++ r)
            = utf8Decode (pre ++ (rest ++ r)) := by
              rw [← List.append_assoc, ← hsplit]
          _ = (utf8Decode (rest ++ r)).map (cp :: ·) := hcomp _
          _ = ((utf8Decode r).map (s' ++ ·)).map (cp :: ·) := by rw [hrec]
          _ = (utf8Decode r).map (s ++ ·) := by
              subst hs
              cases utf8Decode r <;> simp
  intro a s h r
  exact key a.length a s le_rfl h r

/-- If a concatenation `p ++ x :: X` decodes and `x` is not a
continuation byte, the decoder consumes `p` exactly: no codepoint spans
the boundary, so `p` and `x :: X` decode separately. -/
theorem utf8Decode_split_at_noncont :
    ∀ (p : List Nat) {x : Nat} (X s : List Nat), isContByte x = false →
      utf8Decode (p ++ x :: X) = some s →
      ∃ sp sx, utf8Decode p = some sp ∧ utf8Decode (x :: X) = some sx ∧
        s = sp ++ sx := by
  have key : ∀ (n : Nat) (p : List Nat) (x : Nat) (X s : List Nat),
      p.length ≤ n → isContByte x = false →
      utf8Decode (p ++ x :: X) = some s →
      ∃ sp sx, utf8Decode p = some sp ∧ utf8Decode (x :: X) = some sx ∧
        s = sp ++ sx := by
    intro n
    induction n with
    | zero =>
      intro p x X s hlen hx h
      cases p with
      | nil => exact ⟨[], s, utf8Decode_nil, by simpa using h, rfl⟩
      | cons b p' => simp at hlen
    | succ n ih =>
      intro p x X s hlen hx h
      cases p with
      | nil => exact ⟨[], s, utf8Decode_nil, by simpa using h, rfl⟩
      | cons b p' =>
        rw [List.cons_append] at h
        obtain ⟨pre, rest, cp, s'', hsplit, hs, hrest, hpos, htail, hcomp⟩ :=
          utf8Decode_cons_inv h
        obtain ⟨p0, pt, hpre⟩ : ∃ p0 pt, pre = p0 :: pt := by
          cases pre with
          | nil => simp at hpos
          | cons p0 pt => exact ⟨p0, pt, rfl⟩
        subst hpre
        rw [List.cons_append] at hsplit
        have hb : b = p0 := by injection hsplit
        have hmid : p' ++ x :: X = pt ++ rest := by injection hsplit
        by_cases hle : pt.length ≤ p'.length
        · have hpt : pt = p'.take pt.length := by
            have h1 : (pt ++ rest).take pt.length = pt := List.take_left _ _
            have h2 : (p' ++ x :: X).take pt.length = p'.take pt.length :=
              List.take_append_of_le_length hle
            rw [hmid, h1] at h2
            exact h2
          have hrest2 : rest = p'.drop pt.length ++ x :: X := by
            have h1 : (pt ++ rest).drop pt.length = rest := List.drop_left _ _
            have h2 : (p' ++ x :: X).drop pt.length
                = p'.drop pt.length ++ x :: X :=
              List.drop_append_of_le_length hle
            rw [hmid, h1] at h2
            exact h2
          have hlen' : (p'.drop pt.length).length ≤ n := by
            simp only [List.length_cons] at hlen
            simp only [List.length_drop]
            omega
          rw [hrest2] at hrest
          obtain ⟨sp'', sx, hdp'', hdx, hs''⟩ :=
            ih (p'.drop pt.length) x X s'' hlen' hx hrest
          have hp : b :: p' = (p0 :: pt) ++ p'.drop pt.length := by
            rw [List.cons_append, hb]
            congr 1
            conv_lhs => rw [← List.take_append_drop pt.length p']
            rw [← hpt]
          refine ⟨cp :: sp'', sx, ?_, hdx, ?_⟩
          · rw [hp, hcomp, hdp'']
            rfl
          · rw [hs, hs'', List.cons_append]
        · have hxpt : x ∈ pt := by
            have h1 : (pt ++ rest).take (p'.length + 1)
                = pt.take (p'.length + 1) :=
              List.take_append_of_le_length (by omega)
            have h2 : (p' ++ x :: X).take (p'.length + 1) = p' ++ [x] := by
              have := @List.take_append _ p' (x :: X) 1
              simpa using this
            rw [hmid, h1] at h2
            have : x ∈ pt.take (p'.length + 1) := by
              rw [h2]
              simp
            exact List.take_subset _ _ this
          have := htail x (by simpa using hxpt)
          rw [hx] at this
          exact absurd this (by simp)
  intro p x X s hx h
  exact key p.length p x X s le_rfl hx h

theorem chunkCost_of_decode {c sc : List Nat} (h : utf8Decode c = some sc) :
    chunkCost c = sc.length := by
  unfold chunkCost
  rw [h]

theorem chunkCost_of_invalid {c : List Nat} (h : utf8Decode c = none) :
    chunkCost c = c.length := by
  unfold chunkCost
  rw [h]

/-- The key accounting bound: if the concatenation of a garbage prefix
`p` and a chunk sequence decodes, the number of codepoints is at most the
byte length of `p` plus the accounted cost of the chunks (chars for
decodable chunks, bytes for undecodable ones). -/
theorem utf8Decode_join_cost :
    ∀ (cs : List (List Nat)) (p s : List Nat),
      utf8Decode (p ++ cs.flatten) = some s →
      s.length ≤ p.length + costSum cs := by
  intro cs
  induction cs with
  | nil =>
    intro p s h
    rw [List.flatten_nil, List.append_nil] at h
    have := utf8Decode_length_le p s h
    simp [costSum]
    omega
  | cons c cs' ih =>
    intro p s h
    have hsum : costSum (c :: cs') = chunkCost c + costSum cs' := by
      simp [costSum]
    cases hc : utf8Decode c with
    | none =>
      have hcostc : chunkCost c = c.length := chunkCost_of_invalid hc
      have h' : utf8Decode ((p ++ c) ++ cs'.flatten) = some s := by
        rw [List.append_assoc]
        rw [List.flatten_cons] at h
        rw [← List.append_assoc] at h
        rw [List.append_assoc] at h
        exact h
      have := ih (p ++ c) s h'
      rw [hsum, hcostc]
      simp only [List.length_append] at this
      omega
    | some sc =>
      have hcostc : chunkCost c = sc.length := chunkCost_of_decode hc
      cases c with
      | nil =>
        have hsc : sc = [] := by
          rw [utf8Decode_nil] at hc
          exact (Option.some_inj.mp hc).symm
        have h' : utf8Decode (p ++ cs'.flatten) = some s := by
          rw [List.flatten_cons, List.nil_append] at h
          exact h
        have := ih p s h'
        rw [hsum, hcostc, hsc]
        simp
        omega
      | cons b c' =>
        have hb : isContByte b = false := by
          rw [utf8Decode_cons] at hc
          cases hone : utf8DecodeOne (b :: c') with
          | none => rw [hone] at hc; exact absurd hc (by simp)
          | some r => exact utf8DecodeOne_head_not_cont hone
        have h' : utf8Decode (p ++ b :: (c' ++ cs'.flatten)) = some s := by
          rw [List.flatten_cons] at h
          rw [show (b :: c') ++ cs'.flatten = b :: (c' ++ cs'.flatten) from rfl] at h
          exact h
        obtain ⟨sp, sx, hdp, hdx, hs⟩ :=
          utf8Decode_split_at_noncont p _ s hb h'
        have hdx' : utf8Decode ((b :: c') ++ cs'.flatten) = some sx := by
          rw [show (b :: c') ++ cs'.flatten = b :: (c' ++ cs'.flatten) from rfl]
          exact hdx
        rw [utf8Decode_append _ _ hc] at hdx'
        simp only [Option.map_eq_some'] at hdx'
        obtain ⟨s2, hs2, hsx⟩ := hdx'
        have h2 := ih [] s2 (by simpa using hs2)
        have h3 := utf8Decode_length_le p sp hdp
        rw [hsum, hcostc]
        rw [hs, ← hsx]
        simp only [List.length_append, List.length_nil] at h2 ⊢
        omega

theorem extendChunks_within :
    ∀ (cs : List (List Nat)) (cnt : Nat),
      cnt + costSum cs ≤ maxOutputCodepoints →
      extendChunks cnt cs = (cs.flatten, false) := by
  intro cs
  induction cs with
  | nil => intro cnt h; rfl
  | cons c rest ih =>
    intro cnt h
    have hsum : costSum (c :: rest) = chunkCost c + costSum rest := by
      simp [costSum]
    rw [hsum] at h
    rw [extendChunks]
    rw [if_neg (by omega)]
    rw [ih (cnt + chunkCost c) (by omega)]
    simp

theorem extendChunks_overflow :
    ∀ (cs : List (List Nat)) (cnt : Nat),
      cnt ≤ maxOutputCodepoints →
      maxOutputCodepoints < cnt + costSum cs →
      ∃ k, k < cs.length ∧
        extendChunks cnt cs
          = ((cs.take k).flatten ++ truncationMarker, true) ∧
        cnt + costSum (cs.take k) ≤ maxOutputCodepoints ∧
        maxOutputCodepoints < cnt + costSum (cs.take (k + 1)) := by
  intro cs
  induction cs with
  | nil =>
    intro cnt hcnt hover
    simp [costSum] at hover
    omega
  | cons c rest ih =>
    intro cnt hcnt hover
    have hsum : costSum (c :: rest) = chunkCost c + costSum rest := by
      simp [costSum]
    by_cases hc : maxOutputCodepoints < cnt + chunkCost c
    · refine ⟨0, by simp, ?_, ?_, ?_⟩
      · rw [extendChunks, if_pos hc]
        simp
      · simpa [costSum] using hcnt
      · simpa [costSum] using hc
    · push_neg at hc
      rw [hsum] at hover
      obtain ⟨k, hk, heq, hle, hgt⟩ :=
        ih (cnt + chunkCost c) hc (by omega)
      refine ⟨k + 1, by simpa using hk, ?_, ?_, ?_⟩
      · rw [extendChunks, if_neg (by omega), heq]
        simp [costSum]
      · rw [List.take_succ_cons]
        have hcs : costSum (c :: rest.take k)
            = chunkCost c + costSum (rest.take k) := by
          simp [costSum]
        rw [hcs]
        omega
      · rw [List.take_succ_cons]
        have hcs : costSum (c :: rest.take (k + 1))
            = chunkCost c + costSum (rest.take (k + 1)) := by
          simp [costSum]
        rw [hcs]
        omega

theorem utf8Decode_truncationMarker :
    utf8Decode truncationMarker = some [46, 46, 46] := by decide

theorem chunkCost_truncationMarker : chunkCost truncationMarker = 3 := by
  decide

/-- **C4**: over any sequence of log chunks, the budget accounting of
`OutputBuilder::extend` guarantees: within budget, the captured bytes are
exactly the concatenation of all chunks with no marker and no overflow;
on overflow, the capture is the concatenation of the fully-included
chunks followed by the `...` marker — no byte of the overflowing chunk is
included — and any decoding of the capture has at most
budget + marker-length codepoints. -/
theorem C4_output_truncation (chunks : List (List Nat)) :
    (costSum chunks ≤ maxOutputCodepoints →
      extendChunks 0 chunks = (chunks.flatten, false)) ∧
    (maxOutputCodepoints < costSum chunks →
      (extendChunks 0 chunks).2 = true ∧
      (∃ k, k < chunks.length ∧
        (extendChunks 0 chunks).1
          = (chunks.take k).flatten ++ truncationMarker ∧
        costSum (chunks.take k) ≤ maxOutputCodepoints ∧
        maxOutputCodepoints < costSum (chunks.take (k + 1))) ∧
      (∀ s, utf8Decode (extendChunks 0 chunks).1 = some s →
        s.length ≤ maxOutputCodepoints + truncationMarkerLen)) := by
  constructor
  · intro h
    exact extendChunks_within chunks 0 (by omega)
  · intro h
    obtain ⟨k, hk, heq, hle, hgt⟩ :=
      extendChunks_overflow chunks 0 (by omega) (by omega)
    refine ⟨by rw [heq], ⟨k, hk, by rw [heq], by omega, by omega⟩, ?_⟩
    intro s hs
    rw [heq] at hs
    have hflat : (chunks.take k).flatten ++ truncationMarker
        = ((chunks.take k) ++ [truncationMarker]).flatten := by
      rw [List.flatten_append]
      simp
    rw [hflat] at hs
    have := utf8Decode_join_cost ((chunks.take k) ++ [truncationMarker])
      [] s (by simpa using hs)
    have hcs : costSum ((chunks.take k) ++ [truncationMarker])
        = costSum (chunks.take k) + 3 := by
      simp [costSum, chunkCost_truncationMarker]
    rw [hcs] at this
    simp only [List.length_nil, Nat.zero_add] at this
    unfold truncationMarkerLen
    omega

/-- Witness instantiating `C4_output_truncation`: a single undecodable
chunk of 1947 `0xFF` bytes overflows the 1946-codepoint budget, so the
capture is exactly the marker. -/
theorem C4_output_truncation_witness :
    maxOutputCodepoints < costSum [List.replicate 1947 255] ∧
    (extendChunks 0 [List.replicate 1947 255]).2 = true ∧
    (extendChunks 0 [List.replicate 1947 255]).1 = truncationMarker := by
  have hdec : utf8Decode (List.replicate 1947 (255 : Nat)) = none := by
    rw [show (1947 : Nat) = 1946 + 1 from rfl, List.replicate_succ]
    rw [utf8Decode_cons]
    have hone : utf8DecodeOne (255 :: List.replicate 1946 (255 : Nat))
        = none := by
      rw [utf8DecodeOne.eq_def]
      simp
    rw [hone]
  have hcost : chunkCost (List.replicate 1947 (255 : Nat)) = 1947 := by
    rw [chunkCost_of_invalid hdec, List.length_replicate]
  have hover : maxOutputCodepoints < costSum [List.replicate 1947 255] := by
    have : costSum [List.replicate 1947 (255 : Nat)]
        = chunkCost (List.replicate 1947 (255 : Nat)) := by
      simp [costSum]
    rw [this, hcost, maxOutputCodepoints_eq]
    omega
  refine ⟨hover, ((C4_output_truncation _).2 hover).1, ?_⟩
  obtain ⟨k, hk, heq, -, -⟩ := ((C4_output_truncation _).2 hover).2.1
  simp only [List.length_singleton] at hk
  have hk0 : k = 0 := by omega
  subst hk0
  rw [heq]
  simp

/-! ### Control-flow facts about `runCode` -/

theorem runCodeFinish_trace (env : RunEnv) (exit : Nat) :
    (runCodeFinish env exit).2 = [.created, .removeCalled] := by
  unfold runCodeFinish
  split
  · rfl
  · split <;> rfl

theorem runCode_trace_cases (env : RunEnv) :
    (runCode env).2 = [] ∨ (runCode env).2 = [.created] ∨
      (runCode env).2 = [.created, .removeCalled] := by
  unfold runCode
  split
  · split <;> simp
  · simp
  · split
    · simp
    · split
      · simp
      · split
        · split
          · simp
          · split
            · simp
            · right; right; exact runCodeFinish_trace env _
        · split
          · split
            · simp
            · split
              · simp
              · right; right; exact runCodeFinish_trace env _
          · split
            · simp
            · right; right; exact runCodeFinish_trace env _

theorem runCodeFinish_ok_inv (env : RunEnv) (exit : Nat) (out : RunOutput)
    (h : (runCodeFinish env exit).1 = .ret (.ok out)) :
    utf8Decode (runCodeBuf env) = some out.tty ∧ out.status = exit := by
  unfold runCodeFinish at h
  split at h
  · simp at h
  · split at h
    · simp at h
    · simp at h
      rw [← h]
      constructor
      · assumption
      · rfl

theorem runCode_ok_inv (env : RunEnv) (out : RunOutput)
    (h : (runCode env).1 = .ret (.ok out)) :
    utf8Decode (runCodeBuf env) = some out.tty := by
  unfold runCode at h
  split at h
  · split at h <;> simp at h
  · simp at h
  · split at h
    · simp at h
    · split at h
      · simp at h
      · split at h
        · split at h
          · simp at h
          · split at h
            · simp at h
            · exact (runCodeFinish_ok_inv env _ out h).1
        · split at h
          · split at h
            · simp at h
            · split at h
              · simp at h
              · exact (runCodeFinish_ok_inv env _ out h).1
          · split at h
            · simp at h
            · exact (runCodeFinish_ok_inv env _ out h).1

theorem runCodeFinish_not_unrec (env : RunEnv) (exit : Nat) :
    (runCodeFinish env exit).1 ≠ .ret (.error .unrecognizedContainer) := by
  unfold runCodeFinish
  split
  · simp
  · split <;> simp

theorem runCode_unrec_inv (env : RunEnv)
    (h : (runCode env).1 = .ret (.error .unrecognizedContainer)) :
    env.createRes = .error (.fault 404) := by
  unfold runCode at h
  split at h
  · rename_i code heq
    split at h
    · rename_i h404
      rw [heq, h404]
    · simp at h
  · simp at h
  · split at h
    · simp at h
    · split at h
      · simp at h
      · split at h
        · split at h
          · simp at h
          · split at h
            · simp at h
            · exact absurd h (runCodeFinish_not_unrec env _)
        · split at h
          · split at h
            · simp at h
            · split at h
              · simp at h
              · exact absurd h (runCodeFinish_not_unrec env _)
          · split at h
            · simp at h
            · exact absurd h (runCodeFinish_not_unrec env _)

/-- **C1** (the code, not the claim): on the error path where
`copy_file_into` fails after the container was created, `run_code`
returns the propagated error *without* ever calling container-remove —
the created container is leaked, contradicting the claimed invariant
that every created container is removed exactly once on every code
path. -/
theorem C1_remove_skipped_on_copy_failure :
    runCode (RunEnv.mk (.ok ()) (.error (.transport 0)) (.ok ()) false [] []
        (.ok 0) (.ok ()) (.ok 0) (.ok ()))
      = (.ret (.error (.docker (.transport 0))), [.created]) ∧
    RunEvent.created ∈
      (runCode (RunEnv.mk (.ok ()) (.error (.transport 0)) (.ok ()) false
        [] [] (.ok 0) (.ok ()) (.ok 0) (.ok ()))).2 ∧
    RunEvent.removeCalled ∉
      (runCode (RunEnv.mk (.ok ()) (.error (.transport 0)) (.ok ()) false
        [] [] (.ok 0) (.ok ()) (.ok 0) (.ok ()))).2 := by
  refine ⟨rfl, by decide, by decide⟩

/-- **C2**: `stop_container` treats success and the engine's HTTP 304
("already stopped") alike and proceeds; any other stop failure panics
(aborts the process); and on the overflow/timeout paths of `run_code`, a
tolerated stop proceeds to wait-for-exit (the result is then determined
by the wait call), while an intolerable one makes `run_code` panic. -/
theorem C2_force_stop_tolerance :
    stopContainer (.ok ()) = .proceeded ∧
    stopContainer (.error (.fault 304)) = .proceeded ∧
    (∀ e : DockerError, e ≠ .fault 304 →
      stopContainer (.error e) = .panicked) ∧
    (∀ env : RunEnv,
      env.createRes = .ok () → env.copyRes = .ok () →
      env.startRes = .ok () →
      ((extendChunks 0 env.chunks).2 = true ∨
        ((extendChunks 0 env.chunks).2 = false ∧ env.timedOut = true)) →
      stopContainer env.stopRes = .proceeded →
      (∀ e, env.waitAfterStopRes = .error e →
        runCode env = (.ret (.error (.docker e)), [.created])) ∧
      (∀ c, env.waitAfterStopRes = .ok c →
        runCode env = runCodeFinish env c)) ∧
    (∀ env : RunEnv,
      env.createRes = .ok () → env.copyRes = .ok () →
      env.startRes = .ok () →
      ((extendChunks 0 env.chunks).2 = true ∨
        ((extendChunks 0 env.chunks).2 = false ∧ env.timedOut = true)) →
      stopContainer env.stopRes = .panicked →
      (runCode env).1 = .panicked) := by
  refine ⟨rfl, rfl, ?_, ?_, ?_⟩
  · intro e he
    match e with
    | .fault code =>
      have hcode : code ≠ 304 := by
        intro hc
        exact he (by rw [hc])
      simp [stopContainer, hcode]
    | .transport id => rfl
  · intro env hcr hcpy hst hcond hstop
    constructor
    · intro e hwait
      unfold runCode
      rw [hcr, hcpy, hst]
      rcases hcond with hov | ⟨hov, hto⟩
      · rw [hov]
        simp only [if_pos]
        rw [hstop, hwait]
      · rw [hov, hto]
        simp only [Bool.false_eq_true, if_false, if_pos]
        rw [hstop, hwait]
    · intro c hwait
      unfold runCode
      rw [hcr, hcpy, hst]
      rcases hcond with hov | ⟨hov, hto⟩
      · rw [hov]
        simp only [if_pos]
        rw [hstop, hwait]
      · rw [hov, hto]
        simp only [Bool.false_eq_true, if_false, if_pos]
        rw [hstop, hwait]
  · intro env hcr hcpy hst hcond hstop
    unfold runCode
    rw [hcr, hcpy, hst]
    rcases hcond with hov | ⟨hov, hto⟩
    · rw [hov]
      simp only [if_pos]
      rw [hstop]
    · rw [hov, hto]
      simp only [Bool.false_eq_true, if_false, if_pos]
      rw [hstop]

/-- Witness instantiating `C2_force_stop_tolerance` on a concrete
timed-out run whose force-stop returns the engine's 304. -/
theorem C2_force_stop_tolerance_witness :
    stopContainer (.error (.transport 7)) = .panicked ∧
    runCode (RunEnv.mk (.ok ()) (.ok ()) (.ok ()) true [] [] (.ok 0)
        (.error (.fault 304)) (.ok 137) (.ok ()))
      = runCodeFinish (RunEnv.mk (.ok ()) (.ok ()) (.ok ()) true [] []
        (.ok 0) (.error (.fault 304)) (.ok 137) (.ok ())) 137 :=
  ⟨C2_force_stop_tolerance.2.2.1 (.transport 7) (by simp),
   ((C2_force_stop_tolerance.2.2.2.1
      (RunEnv.mk (.ok ()) (.ok ()) (.ok ()) true [] [] (.ok 0)
        (.error (.fault 304)) (.ok 137) (.ok ()))
      rfl rfl rfl (by right; exact ⟨rfl, rfl⟩) rfl).2) 137 rfl⟩

/-- **C3**: container creation failing with the engine's 404 fault is
mapped to `UnrecognizedContainer` (and to nothing else: every other
outcome of `run_code` is not `UnrecognizedContainer`), with no container
created and no leaked events; and `run_code` never invokes an image
build. -/
theorem C3_unrecognized_image (env : RunEnv) :
    (env.createRes = .error (.fault 404) →
      runCode env = (.ret (.error .unrecognizedContainer), [])) ∧
    ((runCode env).1 = .ret (.error .unrecognizedContainer) →
      env.createRes = .error (.fault 404)) ∧
    RunEvent.imageBuilt ∉ (runCode env).2 := by
  refine ⟨?_, runCode_unrec_inv env, ?_⟩
  · intro h
    unfold runCode
    rw [h]
    simp
  · rcases runCode_trace_cases env with h | h | h <;> rw [h] <;> simp

/-- Witness instantiating `C3_unrecognized_image` at a concrete
environment whose image tag does not exist (engine answers 404). -/
theorem C3_unrecognized_image_witness :
    runCode (RunEnv.mk (.error (.fault 404)) (.ok ()) (.ok ()) false [] []
        (.ok 0) (.ok ()) (.ok 0) (.ok ()))
      = (.ret (.error .unrecognizedContainer), []) :=
  (C3_unrecognized_image (RunEnv.mk (.error (.fault 404)) (.ok ()) (.ok ())
    false [] [] (.ok 0) (.ok ()) (.ok 0) (.ok ()))).1 rfl

/-- **C10**: within budget the builder appends every chunk's raw bytes
(decodable or not) so the buffer is the exact concatenation; every
`Output` that `run_code` returns carries the successful UTF-8 decoding of
the captured buffer, so its tty is valid UTF-8 by construction; and when
the buffer is not valid UTF-8 the build step panics — on an
otherwise-successful run `run_code` panics rather than returning an
error value. -/
theorem C10_tty_valid_utf8 (env : RunEnv) :
    (costSum env.chunks ≤ maxOutputCodepoints →
      (extendChunks 0 env.chunks).1 = env.chunks.flatten) ∧
    (∀ out, (runCode env).1 = .ret (.ok out) →
      utf8Decode (runCodeBuf env) = some out.tty) ∧
    (utf8Decode (runCodeBuf env) = none →
      ∀ out, (runCode env).1 ≠ .ret (.ok out)) ∧
    (env.createRes = .ok () → env.copyRes = .ok () → env.startRes = .ok () →
      (extendChunks 0 env.chunks).2 = false → env.timedOut = false →
      (∀ e, env.waitRaceRes ≠ .error e) → env.removeRes = .ok () →
      utf8Decode (runCodeBuf env) = none →
      (runCode env).1 = .panicked) := by
  refine ⟨?_, ?_, ?_, ?_⟩
  · intro h
    rw [extendChunks_within env.chunks 0 (by omega)]
  · intro out h
    exact runCode_ok_inv env out h
  · intro hnone out hok
    rw [runCode_ok_inv env out hok] at hnone
    exact absurd hnone (by simp)
  · intro hcr hcpy hst hov hto hwait hrem hnone
    obtain ⟨c, hc⟩ : ∃ c, env.waitRaceRes = .ok c := by
      cases hw : env.waitRaceRes with
      | ok c => exact ⟨c, rfl⟩
      | error e => exact absurd hw (hwait e)
    unfold runCode
    rw [hcr, hcpy, hst, hov, hto]
    simp only [Bool.false_eq_true, if_false]
    rw [hc]
    unfold runCodeFinish
    rw [hrem, hnone]

/-- Witness instantiating `C10_tty_valid_utf8`: a run whose single log
chunk is the lone continuation byte `0xC3` (within budget, appended raw)
leaves an invalid buffer, so `run_code` panics. -/
theorem C10_tty_valid_utf8_witness :
    (extendChunks 0 [[195]]).1 = [[195]].flatten ∧
    (runCode (RunEnv.mk (.ok ()) (.ok ()) (.ok ()) false [[195]] []
        (.ok 0) (.ok ()) (.ok 0) (.ok ()))).1 = .panicked :=
  ⟨(C10_tty_valid_utf8 (RunEnv.mk (.ok ()) (.ok ()) (.ok ()) false [[195]]
      [] (.ok 0) (.ok ()) (.ok 0) (.ok ()))).1 (by decide),
   (C10_tty_valid_utf8 (RunEnv.mk (.ok ()) (.ok ()) (.ok ()) false [[195]]
      [] (.ok 0) (.ok ()) (.ok 0) (.ok ()))).2.2.2 rfl rfl rfl (by decide)
      rfl (by intro e h; simp at h) rfl (by decide)⟩

/-! ### Options-parser lemmas -/

theorem isIdentRest_of_first {c : Char} (h : isIdentFirst c = true) :
    isIdentRest c = true := by
  unfold isIdentFirst at h
  unfold isIdentRest
  simp only [Bool.or_eq_true] at h ⊢
  rcases h with h | h
  · left
    simp [Char.isAlphanum, h]
  · right
    exact h

theorem not_space_of_identFirst {c : Char} (h : isIdentFirst c = true) :
    isSpaceChar c = false := by
  by_contra hs
  rw [Bool.not_eq_false] at hs
  unfold isSpaceChar at hs
  simp only [Bool.or_eq_true, decide_eq_true_eq] at hs
  rcases hs with ((hc | hc) | hc) | hc <;> subst hc <;> revert h <;> decide

/-- `takeWhile` over a block of satisfying characters followed by a
non-satisfying one. -/
theorem takeWhile_block (p : Char → Bool) :
    ∀ (k : List Char) (d : Char) (t : List Char),
      (∀ c ∈ k, p c = true) → p d = false →
      (k ++ d :: t).takeWhile p = k ∧ (k ++ d :: t).drop k.length = d :: t := by
  intro k
  induction k with
  | nil =>
    intro d t hk hd
    constructor
    · simp [List.takeWhile_cons, hd]
    · simp
  | cons c k' ih =>
    intro d t hk hd
    have hc : p c = true := hk c (by simp)
    obtain ⟨ih1, ih2⟩ := ih d t (fun x hx => hk x (by simp [hx])) hd
    constructor
    · simp only [List.cons_append, List.takeWhile_cons, hc, if_pos]
      rw [ih1]
    · simp

/-- `identifier` on a rendered key consumes exactly the key. -/
theorem identifier_render {k : List Char} (hk : validIdent k = true)
    (t : List Char) :
    identifier (k ++ '=' :: t) = .ok ('=' :: t) k := by
  obtain ⟨c, k', hck⟩ : ∃ c k', k = c :: k' := by
    cases k with
    | nil => simp [validIdent] at hk
    | cons c k' => exact ⟨c, k', rfl⟩
  subst hck
  unfold validIdent at hk
  simp only [Bool.and_eq_true] at hk
  obtain ⟨hfirst, hrest⟩ := hk
  have hall : ∀ x ∈ c :: k', isIdentRest x = true := by
    intro x hx
    rcases List.mem_cons.mp hx with hx | hx
    · subst hx
      exact isIdentRest_of_first hfirst
    · exact List.all_eq_true.mp hrest x hx
  have heq : isIdentRest '=' = false := by decide
  obtain ⟨htake, hdrop⟩ := takeWhile_block isIdentRest (c :: k') '=' t hall heq
  rw [List.cons_append] at htake hdrop
  unfold identifier
  simp only [List.cons_append]
  rw [if_pos hfirst, htake, hdrop]

theorem escapeValue_cons (c : Char) (rest : List Char) :
    escapeValue (c :: rest) =
      if c = '\\' || c = '"' then '\\' :: c :: escapeValue rest
      else c :: escapeValue rest := by
  conv_lhs => rw [escapeValue.eq_def]

theorem escLoop_cons (c : Char) (rest : List Char) :
    escLoop (c :: rest) =
      if c = '\\' then
        match rest with
        | [] => none
        | e :: rest' =>
          if e = '\\' || e = '"' then
            match escLoop rest' with
            | none => none
            | some (v, r) => some (e :: v, r)
          else none
      else if c = '"' then some ([], c :: rest)
      else
        match escLoop rest with
        | none => none
        | some (v, r) => some (c :: v, r) := by
  conv_lhs => rw [escLoop.eq_def]

/-- `escLoop` decodes a quoted-escaped value, stopping at the closing
quote. -/
theorem escLoop_escape :
    ∀ (v t : List Char),
      escLoop (escapeValue v ++ '"' :: t) = some (v, '"' :: t) := by
  intro v
  induction v with
  | nil =>
    intro t
    rw [show escapeValue [] = [] from rfl, List.nil_append, escLoop_cons]
    simp
  | cons c v' ih =>
    intro t
    by_cases hc : (c = '\\' || c = '"') = true
    · rw [escapeValue_cons, if_pos hc]
      simp only [List.cons_append]
      rw [escLoop_cons, if_pos rfl]
      simp only
      rw [if_pos hc, ih t]
    · rw [escapeValue_cons, if_neg hc]
      simp only [List.cons_append]
      simp only [Bool.or_eq_true, decide_eq_true_eq, not_or] at hc
      rw [escLoop_cons,
        if_neg (by simp [hc.1]), if_neg (by simp [hc.2]), ih t]

/-- `escLoop` walks past characters that are neither quotes nor
backslashes. -/
theorem escLoop_clean :
    ∀ (body rest : List Char), (∀ x ∈ body, x ≠ '"' ∧ x ≠ '\\') →
      escLoop (body ++ rest)
        = (escLoop rest).map (fun p => (body ++ p.1, p.2)) := by
  intro body
  induction body with
  | nil =>
    intro rest hb
    simp only [List.nil_append]
    cases escLoop rest with
    | none => simp
    | some p => simp
  | cons c body2 ih =>
    intro rest hb
    have hc := hb c (by simp)
    simp only [List.cons_append]
    rw [escLoop_cons,
      if_neg (by simp [hc.2]), if_neg (by simp [hc.1])]
    rw [ih rest (fun x hx => hb x (by simp [hx]))]
    cases escLoop rest with
    | none => simp
    | some p => simp

/-- `key_value` on a rendered (quoted) pair consumes exactly the pair. -/
theorem keyValue_render {k : List Char} (hk : validIdent k = true)
    (v t : List Char) :
    keyValue (renderPair (k, v) ++ t) = .ok t (k, v) := by
  have hshape : renderPair (k, v) ++ t
      = k ++ '=' :: '"' :: (escapeValue v ++ '"' :: t) := by
    unfold renderPair
    simp
  rw [hshape]
  unfold keyValue
  rw [identifier_render hk]
  simp only [if_true]
  have hql : quotelessString ('"' :: (escapeValue v ++ '"' :: t)) = .err := by
    unfold quotelessString
    simp [List.takeWhile_cons]
  unfold stringValue
  rw [hql]
  simp only
  unfold quotedString
  simp only [if_true]
  rw [escLoop_escape v t]
  simp

/-- The separated-list loop consumes a whole rendered tail when given at
least its length as fuel. -/
theorem sepListLoop_renderTail :
    ∀ (pairs : List (List Char × List Char))
      (acc : List (List Char × List Char)) (fuel : Nat),
      (∀ kv ∈ pairs, validIdent kv.1 = true) →
      (renderTail pairs).length ≤ fuel →
      sepListLoop fuel acc (renderTail pairs) = .ok [] (acc ++ pairs) := by
  intro pairs
  induction pairs with
  | nil =>
    intro acc fuel hv hf
    cases fuel with
    | zero => simp [renderTail, sepListLoop]
    | succ f =>
      rw [show renderTail [] = [] from rfl]
      unfold sepListLoop
      have : multispace1 [] = .err := by
        unfold multispace1
        simp
      rw [this]
      simp
  | cons kv rest ih =>
    intro acc fuel hv hf
    obtain ⟨k, v⟩ := kv
    have hkvalid : validIdent k = true := hv (k, v) (by simp)
    have hlen : 1 ≤ (renderTail ((k, v) :: rest)).length := by
      rw [show renderTail ((k, v) :: rest)
          = ' ' :: (renderPair (k, v) ++ renderTail rest) from rfl]
      simp
    obtain ⟨f, hfuel⟩ : ∃ f, fuel = f + 1 := by
      cases fuel with
      | zero => omega
      | succ f => exact ⟨f, rfl⟩
    subst hfuel
    rw [show renderTail ((k, v) :: rest)
        = ' ' :: (renderPair (k, v) ++ renderTail rest) from rfl] at hf ⊢
    unfold sepListLoop
    have hfirst : ∃ c k', k = c :: k' ∧ isIdentFirst c = true := by
      cases k with
      | nil => simp [validIdent] at hkvalid
      | cons c k' =>
        refine ⟨c, k', rfl, ?_⟩
        unfold validIdent at hkvalid
        simp only [Bool.and_eq_true] at hkvalid
        exact hkvalid.1
    obtain ⟨c, k', hkck, hcfirst⟩ := hfirst
    have hsp : multispace1 (' ' :: (renderPair (k, v) ++ renderTail rest))
        = .ok (renderPair (k, v) ++ renderTail rest) () := by
      unfold multispace1
      have hhead : renderPair (k, v) ++ renderTail rest
          = c :: (k' ++ '=' :: '"' :: (escapeValue v ++ ['"'])
              ++ renderTail rest) := by
        unfold renderPair
        rw [hkck]
        simp
      rw [hhead]
      rw [List.takeWhile_cons]
      have h1 : isSpaceChar ' ' = true := by decide
      have h2 : isSpaceChar c = false := not_space_of_identFirst hcfirst
      rw [h1]
      simp only [if_pos]
      rw [List.takeWhile_cons, h2]
      simp
    rw [hsp]
    simp only
    rw [keyValue_render hkvalid]
    simp only
    have hrec := ih (acc ++ [(k, v)]) f
      (fun x hx => hv x (by simp [hx])) (by
        simp only [List.length_cons, List.length_append] at hf
        omega)
    rw [hrec]
    simp

/-- `config` parses a rendered pair list back to exactly that list. -/
theorem config_render {m : List (List Char × List Char)}
    (hv : ∀ kv ∈ m, validIdent kv.1 = true) :
    config (renderPairs m) = .ok [] m := by
  cases m with
  | nil =>
    rw [show renderPairs [] = [] from rfl]
    unfold config sepList keyValue identifier
    simp
  | cons kv rest =>
    obtain ⟨k, v⟩ := kv
    rw [show renderPairs ((k, v) :: rest)
        = renderPair (k, v) ++ renderTail rest from rfl]
    unfold config sepList
    rw [keyValue_render (hv (k, v) (by simp))]
    simp only
    rw [sepListLoop_renderTail rest [(k, v)] (renderTail rest).length
      (fun x hx => hv x (by simp [hx])) le_rfl]
    simp

/-- Keys produced by `identifier` are valid identifiers. -/
theorem identifier_ok_valid {i r k : List Char}
    (h : identifier i = .ok r k) : validIdent k = true := by
  unfold identifier at h
  cases i with
  | nil => exact absurd h (by simp)
  | cons c tail =>
    dsimp only at h
    by_cases hc : isIdentFirst c = true
    · rw [if_pos hc] at h
      simp only [PRes.ok.injEq] at h
      have hk : k = (c :: tail).takeWhile isIdentRest := h.2.symm
      rw [List.takeWhile_cons, isIdentRest_of_first hc] at hk
      simp only [if_pos] at hk
      subst hk
      unfold validIdent
      simp only [Bool.and_eq_true]
      exact ⟨hc, List.all_takeWhile⟩
    · rw [if_neg hc] at h
      exact absurd h (by simp)

/-- Keys produced by `key_value` are valid identifiers. -/
theorem keyValue_ok_valid {i r : List Char} {kv : List Char × List Char}
    (h : keyValue i = .ok r kv) : validIdent kv.1 = true := by
  unfold keyValue at h
  split at h
  · exact absurd h (by simp)
  · exact absurd h (by simp)
  · rename_i r0 k hid
    split at h
    · exact absurd h (by simp)
    · split at h
      · split at h
        · exact absurd h (by simp)
        · exact absurd h (by simp)
        · simp only [PRes.ok.injEq] at h
          rw [← h.2]
          exact identifier_ok_valid hid
      · exact absurd h (by simp)

/-- The separated-list loop only accumulates valid keys. -/
theorem sepListLoop_valid :
    ∀ (fuel : Nat) (acc : List (List Char × List Char)) (i r : List Char)
      (out : List (List Char × List Char)),
      (∀ kv ∈ acc, validIdent kv.1 = true) →
      sepListLoop fuel acc i = .ok r out →
      ∀ kv ∈ out, validIdent kv.1 = true := by
  intro fuel
  induction fuel with
  | zero =>
    intro acc i r out hacc h
    unfold sepListLoop at h
    simp only [PRes.ok.injEq] at h
    rw [← h.2]
    exact hacc
  | succ f ih =>
    intro acc i r out hacc h
    unfold sepListLoop at h
    split at h
    · simp only [PRes.ok.injEq] at h
      rw [← h.2]
      exact hacc
    · exact absurd h (by simp)
    · split at h
      · simp only [PRes.ok.injEq] at h
        rw [← h.2]
        exact hacc
      · exact absurd h (by simp)
      · rename_i i1 u i2 kv hkv
        exact ih (acc ++ [kv]) i2 r out
          (by
            intro x hx
            rcases List.mem_append.mp hx with hx | hx
            · exact hacc x hx
            · simp at hx
              rw [hx]
              exact keyValue_ok_valid hkv)
          h

/-- All keys coming out of `config` are valid identifiers. -/
theorem config_valid {s r : List Char}
    {pairs : List (List Char × List Char)}
    (h : config s = .ok r pairs) :
    ∀ kv ∈ pairs, validIdent kv.1 = true := by
  unfold config at h
  split at h
  · exact absurd h (by simp)
  · exact absurd h (by simp)
  · rename_i r0 pairs0 hsep
    simp only [PRes.ok.injEq] at h
    rw [← h.2]
    unfold sepList at hsep
    split at hsep
    · simp only [PRes.ok.injEq] at hsep
      rw [← hsep.2]
      simp
    · exact absurd hsep (by simp)
    · rename_i i1 kv hkv
      exact sepListLoop_valid i1.length [kv] i1 r0 pairs0
        (by
          intro x hx
          simp at hx
          rw [hx]
          exact keyValue_ok_valid hkv)
        hsep

/-- Success of the duplicate-checking fold: the result is the
concatenation and its keys are distinct. -/
theorem insertPairs_ok :
    ∀ (raw acc m : List (List Char × List Char)),
      (acc.map Prod.fst).Nodup → insertPairs acc raw = .ok m →
      m = acc ++ raw ∧ (m.map Prod.fst).Nodup := by
  intro raw
  induction raw with
  | nil =>
    intro acc m hnd h
    unfold insertPairs at h
    simp only [Except.ok.injEq] at h
    subst h
    simpa using hnd
  | cons kv rest ih =>
    intro acc m hnd h
    obtain ⟨k, v⟩ := kv
    unfold insertPairs at h
    by_cases hmem : ((acc.map Prod.fst).contains k) = true
    · rw [if_pos hmem] at h
      exact absurd h (by simp)
    · rw [if_neg hmem] at h
      have hnd' : ((acc ++ [(k, v)]).map Prod.fst).Nodup := by
        rw [List.map_append]
        apply List.Nodup.append hnd (by simp)
        intro x hx hy
        simp at hy
        subst hy
        exact absurd (List.elem_iff.mpr (by simpa using hx)) hmem
      obtain ⟨hm, hmnd⟩ := ih (acc ++ [(k, v)]) m hnd' h
      refine ⟨by rw [hm]; simp, hmnd⟩

/-- Completeness of the fold: distinct keys always insert cleanly. -/
theorem insertPairs_complete :
    ∀ (raw acc : List (List Char × List Char)),
      (((acc ++ raw).map Prod.fst)).Nodup →
      insertPairs acc raw = .ok (acc ++ raw) := by
  intro raw
  induction raw with
  | nil =>
    intro acc hnd
    simp [insertPairs]
  | cons kv rest ih =>
    intro acc hnd
    obtain ⟨k, v⟩ := kv
    unfold insertPairs
    have hmem : ((acc.map Prod.fst).contains k) = false := by
      rw [Bool.eq_false_iff]
      intro hk
      have hk' : k ∈ acc.map Prod.fst := List.elem_iff.mp hk
      rw [List.map_append] at hnd
      obtain ⟨-, -, hdisj⟩ := List.nodup_append.mp hnd
      exact hdisj hk' (by simp)
    rw [if_neg (by rw [hmem]; simp)]
    have := ih (acc ++ [(k, v)]) (by simpa using hnd)
    rw [this]
    simp

/-- A duplicate key makes the fold fail with a `dupKey` error. -/
theorem insertPairs_dup :
    ∀ (raw acc : List (List Char × List Char)),
      (acc.map Prod.fst).Nodup →
      ¬ ((acc ++ raw).map Prod.fst).Nodup →
      ∃ k, insertPairs acc raw = .error (.dupKey k) := by
  intro raw
  induction raw with
  | nil =>
    intro acc hnd hdup
    exact absurd (by simpa using hnd) hdup
  | cons kv rest ih =>
    intro acc hnd hdup
    obtain ⟨k, v⟩ := kv
    unfold insertPairs
    by_cases hmem : ((acc.map Prod.fst).contains k) = true
    · exact ⟨k, by rw [if_pos hmem]⟩
    · rw [if_neg hmem]
      apply ih (acc ++ [(k, v)])
      · rw [List.map_append]
        apply List.Nodup.append hnd (by simp)
        intro x hx hy
        simp at hy
        subst hy
        exact absurd (List.elem_iff.mpr (by simpa using hx)) hmem
      · intro hnd'
        apply hdup
        simpa using hnd'

/-- An unrecoverable failure of the pair parser makes `parse_options`
fail. -/
theorem parse_options_of_keyValue_cut {s : List Char}
    (h : keyValue s = .cut) : parse_options s = .error .syntaxErr := by
  unfold parse_options config sepList
  rw [h]

/-- A rendered key, `=`, then an opening quote whose body fails
unrecoverably, makes `key_value` fail unrecoverably. -/
theorem keyValue_cut_render {k : List Char} (hk : validIdent k = true)
    {B : List Char} (h : quotedString ('"' :: B) = .cut) :
    keyValue (k ++ '=' :: '"' :: B) = .cut := by
  unfold keyValue
  rw [identifier_render hk]
  simp only [if_true]
  unfold stringValue
  have hql : quotelessString ('"' :: B) = .err := by
    unfold quotelessString
    simp [List.takeWhile_cons]
  rw [hql]
  simp only
  rw [h]

/-- **C8**: `parse_options` accepts the empty input as the empty map and
rejects duplicate keys, any non-empty unconsumed remainder, unterminated
quoted values, and invalid escapes inside quoted values. -/
theorem C8_parse_options_rejections :
    parse_options [] = .ok [] ∧
    (∀ (s : List Char) (pairs : List (List Char × List Char)),
      config s = .ok [] pairs → ¬ (pairs.map Prod.fst).Nodup →
      ∃ k, parse_options s = .error (.dupKey k)) ∧
    (∀ (s rest : List Char) (pairs : List (List Char × List Char)),
      config s = .ok rest pairs → rest ≠ [] →
      parse_options s = .error (.unconsumed rest)) ∧
    (∀ (k body : List Char), validIdent k = true →
      (∀ x ∈ body, x ≠ '"' ∧ x ≠ '\\') →
      parse_options (k ++ '=' :: '"' :: body) = .error .syntaxErr) ∧
    (∀ (k body : List Char) (c : Char) (t : List Char),
      validIdent k = true → (∀ x ∈ body, x ≠ '"' ∧ x ≠ '\\') →
      ¬ (c = '\\' ∨ c = '"') →
      parse_options (k ++ '=' :: '"' :: (body ++ '\\' :: c :: t))
        = .error .syntaxErr) := by
  refine ⟨rfl, ?_, ?_, ?_, ?_⟩
  · intro s pairs hconf hdup
    unfold parse_options
    rw [hconf]
    exact insertPairs_dup pairs [] (by simp) (by simpa using hdup)
  · intro s rest pairs hconf hne
    unfold parse_options
    rw [hconf]
    cases rest with
    | nil => exact absurd rfl hne
    | cons c r => rfl
  · intro k body hk hbody
    apply parse_options_of_keyValue_cut
    apply keyValue_cut_render hk
    unfold quotedString
    simp only [if_true]
    have hesc : escLoop body = some (body, []) := by
      have hcl := escLoop_clean body [] hbody
      rw [List.append_nil] at hcl
      rw [hcl, show escLoop [] = some ([], []) from rfl]
      simp
    rw [hesc]
  · intro k body c t hk hbody hc
    apply parse_options_of_keyValue_cut
    apply keyValue_cut_render hk
    unfold quotedString
    simp only [if_true]
    have hinner : escLoop ('\\' :: c :: t) = none := by
      rw [escLoop_cons]
      split
      · dsimp only
        rw [if_neg (by simpa using hc)]
      · rename_i hne
        exact absurd rfl hne
    have hesc : escLoop (body ++ '\\' :: c :: t) = none := by
      rw [escLoop_clean body _ hbody, hinner]
      rfl
    rw [hesc]

/-- Witness instantiating `C8_parse_options_rejections` at concrete
inputs: a duplicated key, an unterminated quote, an invalid escape. -/
theorem C8_parse_options_rejections_witness :
    (∃ k, parse_options "k=1 k=2".toList = .error (.dupKey k)) ∧
    parse_options (['a'] ++ '=' :: '"' :: ['b', 'c'])
      = .error .syntaxErr ∧
    parse_options (['a'] ++ '=' :: '"' :: ([] ++ '\\' :: 'n' :: []))
      = .error .syntaxErr := by
  refine ⟨?_, ?_, ?_⟩
  · exact C8_parse_options_rejections.2.1 "k=1 k=2".toList
      [(['k'], ['1']), (['k'], ['2'])] (by decide) (by decide)
  · exact C8_parse_options_rejections.2.2.2.1 ['a'] ['b', 'c']
      (by decide) (by decide)
  · exact C8_parse_options_rejections.2.2.2.2 ['a'] [] 'n' []
      (by decide) (by decide) (by decide)

/-- **C9**: any map with grammar-valid distinct keys round-trips:
rendering it as whitespace-separated `k="v"` pairs parses back to the
same map; in particular the result of any successful `parse_options`
round-trips through re-serialization to an equal map. -/
theorem C9_parse_roundtrip :
    (∀ (m : List (List Char × List Char)),
      (∀ kv ∈ m, validIdent kv.1 = true) → (m.map Prod.fst).Nodup →
      parse_options (renderPairs m) = .ok m) ∧
    (∀ (s : List Char) (m : List (List Char × List Char)),
      parse_options s = .ok m →
      parse_options (renderPairs m) = .ok m) := by
  have hrender : ∀ (m : List (List Char × List Char)),
      (∀ kv ∈ m, validIdent kv.1 = true) → (m.map Prod.fst).Nodup →
      parse_options (renderPairs m) = .ok m := by
    intro m hv hnd
    unfold parse_options
    rw [config_render hv]
    exact insertPairs_complete m [] (by simpa using hnd)
  refine ⟨hrender, ?_⟩
  intro s m h
  unfold parse_options at h
  split at h
  · rename_i pairs heq
    obtain ⟨hm, hnd⟩ := insertPairs_ok pairs [] m (by simp) h
    simp only [List.nil_append] at hm
    subst hm
    exact hrender m (config_valid heq) hnd
  · exact absurd h (by simp)
  · exact absurd h (by simp)
  · exact absurd h (by simp)

/-- Witness instantiating `C9_parse_roundtrip` on a parsed input with a
quoted value containing a space. -/
theorem C9_parse_roundtrip_witness :
    parse_options (renderPairs [(['k'], ['a', ' ', 'b'])])
      = .ok [(['k'], ['a', ' ', 'b'])] :=
  C9_parse_roundtrip.2 "k=\"a b\"".toList [(['k'], ['a', ' ', 'b'])]
    (by rfl)

/-- Every successful resolution lands in the finite enumeration of
producible `(variant, RunSpec)` pairs. -/
theorem runSpec_mem :
    ∀ (l : Lang) (o : Options) (s : RunSpec),
      Lang.runSpec l o = .ok s → (l, s) ∈ allSpecs := by
  intro l o s h
  cases l <;> simp only [Lang.runSpec] at h
  case sh =>
    split at h
    · exact absurd h (by simp)
    · simp only [Except.ok.injEq] at h
      subst h
      decide
  case bash =>
    split at h
    · exact absurd h (by simp)
    · simp only [Except.ok.injEq] at h
      subst h
      decide
  case zsh =>
    split at h
    · exact absurd h (by simp)
    · simp only [Except.ok.injEq] at h
      subst h
      decide
  case python =>
    split at h
    · exact absurd h (by simp)
    · rename_i version bundle heq
      split at h
      · rename_i hv
        split at h
        · exact absurd h (by simp)
        · rename_i pip hpip
          unfold pipInstallFor at hpip
          simp only [Except.ok.injEq] at h
          subst h
          split_ifs at hpip with hb1 hb2
          · simp only [Option.some_inj] at hpip
            subst hb1
            subst hpip
            rcases hv with hv | hv | hv | hv <;> subst hv <;> decide
          · simp only [Option.some_inj] at hpip
            subst hb2
            subst hpip
            rcases hv with hv | hv | hv | hv <;> subst hv <;> decide
      · exact absurd h (by simp)
  case javascript =>
    split at h
    · exact absurd h (by simp)
    · rename_i version
      split at h
      · rename_i hv
        simp only [Except.ok.injEq] at h
        subst h
        rcases hv with hv | hv | hv | hv <;> subst hv <;> decide
      · exact absurd h (by simp)
  case typescript =>
    split at h
    · exact absurd h (by simp)
    · simp only [Except.ok.injEq] at h
      subst h
      decide
  case perl =>
    split at h
    · exact absurd h (by simp)
    · simp only [Except.ok.injEq] at h
      subst h
      decide
  case php =>
    split at h
    · exact absurd h (by simp)
    · simp only [Except.ok.injEq] at h
      subst h
      decide
  case ruby =>
    split at h
    · exact absurd h (by simp)
    · rename_i version
      split at h
      · rename_i hv
        simp only [Except.ok.injEq] at h
        subst h
        rcases hv with hv | hv | hv | hv <;> subst hv <;> decide
      · exact absurd h (by simp)
  case lua =>
    split at h
    · exact absurd h (by simp)
    · rename_i version
      split at h
      · rename_i hv
        simp only [Except.ok.injEq] at h
        subst h
        rcases hv with hv | hv | hv | hv <;> subst hv <;> decide
      · exact absurd h (by simp)
  case julia =>
    split at h
    · exact absurd h (by simp)
    · rename_i version
      split at h
      · rename_i hv
        simp only [Except.ok.injEq] at h
        subst h
        rcases hv with hv | hv | hv <;> subst hv <;> decide
      · exact absurd h (by simp)
  case r =>
    split at h
    · exact absurd h (by simp)
    · simp only [Except.ok.injEq] at h
      subst h
      decide
  case go =>
    split at h
    · exact absurd h (by simp)
    · rename_i version
      split at h
      · rename_i hv
        simp only [Except.ok.injEq] at h
        subst h
        rcases hv with hv | hv <;> subst hv <;> decide
      · exact absurd h (by simp)
  case java =>
    split at h
    · exact absurd h (by simp)
    · rename_i version
      split at h
      · rename_i hv
        simp only [Except.ok.injEq] at h
        subst h
        rcases hv with hv | hv | hv | hv | hv <;> subst hv <;> decide
      · exact absurd h (by simp)
  case kotlin =>
    split at h
    · exact absurd h (by simp)
    · simp only [Except.ok.injEq] at h
      subst h
      decide
  case groovy =>
    split at h
    · exact absurd h (by simp)
    · rename_i version
      split at h
      · rename_i hv
        simp only [Except.ok.injEq] at h
        subst h
        rcases hv with hv | hv <;> subst hv <;> decide
      · exact absurd h (by simp)
  case csharp =>
    split at h
    · exact absurd h (by simp)
    · simp only [Except.ok.injEq] at h
      subst h
      decide
  case swift =>
    split at h
    · exact absurd h (by simp)
    · rename_i version
      split at h
      · rename_i hv
        simp only [Except.ok.injEq] at h
        subst h
        rcases hv with hv | hv | hv <;> subst hv <;> decide
      · exact absurd h (by simp)
  case haskell =>
    split at h
    · exact absurd h (by simp)
    · simp only [Except.ok.injEq] at h
      subst h
      decide
  case elixir =>
    split at h
    · exact absurd h (by simp)
    · rename_i version
      split at h
      · rename_i hv
        simp only [Except.ok.injEq] at h
        subst h
        rcases hv with hv | hv | hv | hv | hv | hv <;> subst hv <;> decide
      · exact absurd h (by simp)
  case ocaml =>
    split at h
    · exact absurd h (by simp)
    · simp only [Except.ok.injEq] at h
      subst h
      decide
  case c =>
    split at h
    · exact absurd h (by simp)
    · simp only [Except.ok.injEq] at h
      subst h
      decide
  case cpp =>
    split at h
    · exact absurd h (by simp)
    · simp only [Except.ok.injEq] at h
      subst h
      decide
  case rust =>
    split at h
    · exact absurd h (by simp)
    · simp only [Except.ok.injEq] at h
      subst h
      decide
  case fortran =>
    split at h
    · exact absurd h (by simp)
    · simp only [Except.ok.injEq] at h
      subst h
      decide

/-- The 56 producible image names are pairwise distinct. -/
theorem allSpecs_imageNames_nodup :
    (allSpecs.map (fun e => e.2.image_name)).Nodup := by
  decide

/-- C6: over all registered language variants, `image_name` is an
injective function of the resolved configuration: whenever two variants
with option maps both resolve successfully and the resulting RunSpecs
carry the same image name, the variants coincide and the resolved
RunSpecs (which embed the resolved option values in their image name
and dockerfile) are equal. -/
theorem C6_image_name_injective (l1 l2 : Lang) (o1 o2 : Options)
    (s1 s2 : RunSpec)
    (h1 : Lang.runSpec l1 o1 = .ok s1) (h2 : Lang.runSpec l2 o2 = .ok s2)
    (himg : s1.image_name = s2.image_name) : l1 = l2 ∧ s1 = s2 := by
  have m1 := runSpec_mem l1 o1 s1 h1
  have m2 := runSpec_mem l2 o2 s2 h2
  have heq : (l1, s1) = (l2, s2) :=
    List.inj_on_of_nodup_map allSpecs_imageNames_nodup m1 m2 himg
  exact ⟨congrArg Prod.fst heq, congrArg Prod.snd heq⟩

/-- Witness instantiating `C6_image_name_injective` on the python
variant with the empty option map on both sides. -/
theorem C6_image_name_injective_witness :
    Lang.runSpec .python []
        = .ok (pythonSpec "3.9" "scipy" "RUN pip install numpy scipy sympy")
      ∧ (Lang.python = Lang.python
          ∧ pythonSpec "3.9" "scipy" "RUN pip install numpy scipy sympy"
              = pythonSpec "3.9" "scipy" "RUN pip install numpy scipy sympy") :=
  ⟨rfl,
   C6_image_name_injective .python .python [] []
     (pythonSpec "3.9" "scipy" "RUN pip install numpy scipy sympy")
     (pythonSpec "3.9" "scipy" "RUN pip install numpy scipy sympy")
     rfl rfl rfl⟩

end Codie
